import Mathlib

/-!
korrel8r: unique error aggregation and key-based deduplication

A shallow embedding of

* `pkg/engine/traverse/errors.go`: the type `traverse.Errors` with `NewErrors`, `Log`, `Err`;
* the parts of `pkg/unique` and `pkg/korrel8r` that `errors.go` and `unique_test.go` use
  (`unique.Errors`, `unique.Copy`, `unique.InPlace`, `unique.List`, `korrel8r.PartialError`).

Conventions.

* A Go value of interface type `error` is an `Option`: `none` is `nil`.
* `ε` is the type of the non-nil error values that callers report, `κ` the type of their
  equivalence keys and `key : ε → κ` the equivalence-key function.
* A Go slice is an `Option (List α)`: `none` is the nil slice, `some []` is a slice that is
  present but empty.
* Go `int` is the 64-bit two's complement integer: an `Int` kept in range by `wrapInt`.
* The logging sink is the list of the entries handed to `log.Error`, oldest first.
* `Log` runs under the mutex of the aggregator from its first to its last statement, so one
  call of `Log` is one transition of the state. That this is sound is what `traverse.System`
  is for: there the goroutines run `Log` statement by statement under a schedule, and the state
  seen when the mutex is free is that of the calls made one after the other.
-/

namespace korrel8r

/-- Go `int` arithmetic on a 64-bit platform: the result of an operation is reduced to the
range `-2^63 ≤ x < 2^63` by two's complement wrap-around. -/
def wrapInt (x : Int) : Int := (x + 2 ^ 63) % 2 ^ 64 - 2 ^ 63

/-- Modelled from the spec: the declarations of `korrel8r.PartialError` and of the combined
error of `unique.Errors` are missing. The error values that leave the aggregator are the
combined error of the distinct recorded errors (a multi-error aggregate, in insertion order)
and the partial-failure wrapper `&korrel8r.PartialError{Err: ...}` carrying its cause. -/
inductive Error (ε : Type) where
  | Join (errs : List ε) : Error ε
  | PartialError (Err : Error ε) : Error ε
  deriving DecidableEq

end korrel8r

namespace unique

variable {α β ε κ : Type} [DecidableEq κ]

/-- Go `append(s, v)`: the result is always a present slice. -/
def sliceAppend (s : Option (List α)) (v : α) : Option (List α) :=
  some (s.getD [] ++ [v])

/-- Modelled from the spec: the loop of `unique.Copy`. Iterate the input in order; an element
whose key is unseen is appended to the output and its key marked seen, an element whose key is
seen is skipped. -/
def copyLoop (key : α → κ) : List α → List κ → Option (List α) → Option (List α)
  | [], _, result => result
  | v :: rest, seen, result =>
    if key v ∈ seen then copyLoop key rest seen result
    else copyLoop key rest (key v :: seen) (sliceAppend result v)

/-- Modelled from the spec: `unique.Copy` is missing from the sources (only its test is there).
It does not mutate the input, keeps a set of seen keys, and builds a new output that starts out
absent, so that an absent or empty input gives the absent result. -/
def Copy (list : Option (List α)) (key : α → κ) : Option (List α) :=
  copyLoop key (list.getD []) [] none

/-- Modelled from the spec: the loop of `unique.InPlace` over the storage `buf` of the input.
`n` elements are still to be read, `i` is the index read next and `j` the index written next.
An element whose key is unseen is moved forward to `buf[j]` and its key marked seen. Returns
the storage and the number of unique elements. -/
def inPlaceLoop (key : α → κ) : Nat → List α → List κ → Nat → Nat → List α × Nat
  | 0, buf, _, _, j => (buf, j)
  | n + 1, buf, seen, i, j =>
    match buf[i]? with
    | none => (buf, j)
    | some v =>
      if key v ∈ seen then inPlaceLoop key n buf seen (i + 1) j
      else inPlaceLoop key n (buf.set j v) (key v :: seen) (i + 1) (j + 1)

/-- Modelled from the spec: `unique.InPlace` is missing from the sources (only its test is
there). Same deduplication as `Copy`, applied by compacting the kept elements forward in the
storage of the input and truncating: the result is the slice `list[:j]` of the input, which is
nil for a nil input and present for a present one. -/
def InPlace (list : Option (List α)) (key : α → κ) : Option (List α) :=
  match list with
  | none => none
  | some xs => some ((inPlaceLoop key xs.length xs [] 0 0).1.take (inPlaceLoop key xs.length xs [] 0 0).2)

/-- Modelled from the spec: `unique.Same` is missing from the sources; it is the key function
under which every element is its own key. -/
def Same (v : α) : α := v

/-- Modelled from the spec: the type `unique.Errors` is missing from the sources. It holds at
most one representative per error equivalence key; `errs` lists the representatives in
insertion order. The zero value is the empty set. -/
structure Errors (ε : Type) where
  errs : List ε := []
  deriving DecidableEq

/-- Modelled from the spec: `unique.Errors.Add` is missing from the sources. Adding a nil error
is a no-op that returns false; adding a non-nil error inserts it when its key is new and
returns whether the key was newly inserted. -/
def Errors.Add (key : ε → κ) (e : Errors ε) : Option ε → Errors ε × Bool
  | none => (e, false)
  | some err =>
    if key err ∈ e.errs.map key then (e, false)
    else ({ errs := e.errs ++ [err] }, true)

/-- Modelled from the spec: `unique.Errors.Err` is missing from the sources. The combined error
of all distinct recorded errors, in insertion order; nil when no error was recorded. -/
def Errors.Err (e : Errors ε) : Option (korrel8r.Error ε) :=
  match e.errs with
  | [] => none
  | errs => some (korrel8r.Error.Join errs)

end unique

namespace traverse

variable {ε κ : Type} [DecidableEq κ]

/-- One call `log.Error(err, msg, kv...)` received by the logging sink. -/
structure LogEntry (ε : Type) where
  err : Option ε
  msg : String
  kv : List String
  deriving DecidableEq

/-- The type `Errors` of `errors.go`: the set of unique errors, the count of successes and the
logging sink (the mutex is the atomicity of `Log`). -/
structure Errors (ε : Type) where
  errs : unique.Errors ε
  ok : Int
  log : List (LogEntry ε)
  deriving DecidableEq

/-- `NewErrors(log)`: only the logger is set, the other fields have their zero value. -/
def NewErrors (log : List (LogEntry ε)) : Errors ε :=
  { errs := {}, ok := 0, log := log }

/-- `(*Errors).Log`: count a nil `err` as a success, add `err` to the set, and when it was newly
added emit it to the sink and return true. Returns the state after the call and the result. -/
def Errors.Log (key : ε → κ) (e : Errors ε) (err : Option ε) (msg : String) (kv : List String) :
    Errors ε × Bool :=
  let ok := match err with
    | none => korrel8r.wrapInt (e.ok + 1)
    | some _ => e.ok
  let added := e.errs.Add key err
  if added.2 then
    ({ errs := added.1, ok := ok, log := e.log ++ [{ err := err, msg := msg, kv := kv }] }, true)
  else
    ({ errs := added.1, ok := ok, log := e.log }, false)

/-- `(*Errors).Err`: nil when no error was recorded, a `PartialError` around the combined error
when there was a success, the combined error itself otherwise. -/
def Errors.Err (e : Errors ε) : Option (korrel8r.Error ε) :=
  match e.errs.Err with
  | none => none
  | some combined =>
    if e.ok > 0 then some (korrel8r.Error.PartialError combined)
    else some combined

/-- The arguments of one call of `Log`. -/
structure LogCall (ε : Type) where
  err : Option ε
  msg : String
  kv : List String
  deriving DecidableEq

/-- The state after a finite sequence of `Log` calls, made one after the other. -/
def Errors.LogAll (key : ε → κ) (e : Errors ε) (calls : List (LogCall ε)) : Errors ε :=
  calls.foldl (fun s c => (s.Log key c.err c.msg c.kv).1) e

end traverse

namespace unique

variable {α β κ : Type} [DecidableEq κ]

/-- Index `i` of `xs` holds the first element of its key: no earlier element `xs[j]`, `j < i`,
has the key of `xs[i]`. -/
def isFirstOfKey (key : α → κ) (xs : List α) (i : Nat) : Prop :=
  ∀ j, j < i → (xs[j]?).map key ≠ (xs[i]?).map key

instance (key : α → κ) (xs : List α) (i : Nat) : Decidable (isFirstOfKey key xs i) :=
  Nat.decidableBallLT i (fun j _ => (xs[j]?).map key ≠ (xs[i]?).map key)

/-- The subsequence of `xs` made of exactly the elements that are the first of their key. -/
def firstOccurrences (key : α → κ) (xs : List α) : List α :=
  ((List.range xs.length).filter (fun i => isFirstOfKey key xs i)).filterMap (fun i => xs[i]?)

/-- Elements of a list that carry a key (`k b = some q`) that is neither in `seen` nor carried
by an earlier element of the list. -/
def keepNew (k : β → Option κ) : List κ → List β → List β
  | _, [] => []
  | seen, b :: bs =>
    match k b with
    | none => keepNew k seen bs
    | some q => if q ∈ seen then keepNew k seen bs else b :: keepNew k (q :: seen) bs

/-- Index `i` of `xs` holds an element that carries a key which no earlier element carries. -/
def isFirstAt (k : β → Option κ) (xs : List β) (i : Nat) : Prop :=
  ((xs[i]?).bind k).isSome = true ∧ ∀ j, j < i → (xs[j]?).bind k ≠ (xs[i]?).bind k

instance (k : β → Option κ) (xs : List β) (i : Nat) : Decidable (isFirstAt k xs i) :=
  @instDecidableAnd _ _ _
    (Nat.decidableBallLT i (fun j _ => (xs[j]?).bind k ≠ (xs[i]?).bind k))

end unique

namespace traverse

variable {ε κ : Type} [DecidableEq κ]

/-- Call number `i` of `calls` is the first report of its error class: its `err` is non-nil and
no earlier call reported an error with the same key. -/
def isFirstReport (key : ε → κ) (calls : List (LogCall ε)) (i : Nat) : Prop :=
  ((calls[i]?).bind (fun c => c.err)).isSome = true ∧
    ∀ j, j < i →
      ((calls[j]?).bind (fun c => c.err)).map key ≠ ((calls[i]?).bind (fun c => c.err)).map key

instance (key : ε → κ) (calls : List (LogCall ε)) (i : Nat) :
    Decidable (isFirstReport key calls i) :=
  @instDecidableAnd _ _ _
    (Nat.decidableBallLT i (fun j _ =>
      ((calls[j]?).bind (fun c => c.err)).map key ≠ ((calls[i]?).bind (fun c => c.err)).map key))

/-- The calls that are the first report of their error class, in the order of the calls. -/
def firstReports (key : ε → κ) (calls : List (LogCall ε)) : List (LogCall ε) :=
  ((List.range calls.length).filter (fun i => isFirstReport key calls i)).filterMap
    (fun i => calls[i]?)

/-- The entry that `Log` hands to the sink for a call. -/
def LogCall.entry (c : LogCall ε) : LogEntry ε :=
  { err := c.err, msg := c.msg, kv := c.kv }

/-- Keys of the non-nil errors reported by a sequence of calls. -/
def reportedKeys (key : ε → κ) (calls : List (LogCall ε)) : List κ :=
  (calls.filterMap (fun c => c.err)).map key

/-- Number of calls of a sequence whose `err` is nil. -/
def successes (calls : List (LogCall ε)) : Nat :=
  (calls.filter (fun c => c.err.isNone)).length

end traverse

namespace unique

variable {α : Type} [DecidableEq α]

/-- Modelled from the spec: the type `unique.List` is missing from the sources (only its test is
there); it is named `UniqueList` here, as in the spec, because `List` is the list type of Lean.
An incrementally built unique sequence: the set of the elements seen and the ordered unique
sequence, a slice that is nil until the first element is appended. The field `list` is the Go
field `List`, renamed for the same reason. -/
structure UniqueList (α : Type) where
  seen : List α
  list : Option (List α)

/-- Modelled from the spec: `unique.NewList` is missing from the sources; it returns the empty
list. -/
def NewList : UniqueList α :=
  { seen := [], list := none }

/-- Modelled from the spec: `(*List).Append` is missing from the sources. It accepts zero or
more elements and, for each in order, makes the seen check of `Copy` before appending it to the
unique sequence; an element that was seen is dropped. -/
def UniqueList.Append (l : UniqueList α) (values : List α) : UniqueList α :=
  values.foldl
    (fun l v => if v ∈ l.seen then l else { seen := v :: l.seen, list := sliceAppend l.list v }) l

/-- The list after a finite series of `Append` calls, made one after the other. -/
def UniqueList.AppendAll (l : UniqueList α) (calls : List (List α)) : UniqueList α :=
  calls.foldl UniqueList.Append l

/-- Modelled from the spec: `unique.Errors.Err` is missing from the sources; this is the call
with the state made explicit, the error set after the call and the result. The spec has the set
expose its combined error, a value derived from the recorded errors: the call reads the set and
leaves it as it was. -/
def Errors.ErrCall {ε : Type} (e : Errors ε) : Errors ε × Option (korrel8r.Error ε) :=
  (e, e.Err)

end unique

namespace korrel8r

/-- The three classes of result of `(*Errors).Err`. -/
inductive ErrClass where
  | nil : ErrClass
  | combined : ErrClass
  | PartialError : ErrClass
  deriving DecidableEq

/-- The class of a Go `error` value returned by `Err`: nil, the plain combined error, or a
`PartialError`. -/
def classify {ε : Type} : Option (Error ε) → ErrClass
  | none => ErrClass.nil
  | some (Error.Join _) => ErrClass.combined
  | some (Error.PartialError _) => ErrClass.PartialError

end korrel8r

namespace traverse

variable {ε κ : Type} [DecidableEq κ]

/-- `(*Errors).Err` with the state made explicit, statement by statement: the aggregator after
the call and the result. `errsErr` is the call `e.errs.Err()`, code that is missing from the
sources: it receives the error set and returns the set after the call and its result, and, being
a method of the field `errs`, it has no access to `ok` and `log`. The first case of the switch
makes the call and compares its result with nil; the second case reads `e.ok`; the second and
the default case make the call again and return its result, the second inside
`&korrel8r.PartialError{Err: ...}`, which is never nil (a nil cause is written as the empty
combined error). -/
def Errors.ErrCall (errsErr : unique.Errors ε → unique.Errors ε × Option (korrel8r.Error ε))
    (e : Errors ε) : Errors ε × Option (korrel8r.Error ε) :=
  let first := errsErr e.errs
  let e₁ : Errors ε := { e with errs := first.1 }
  match first.2 with
  | none => (e₁, none)
  | some _ =>
    let second := errsErr e₁.errs
    let e₂ : Errors ε := { e₁ with errs := second.1 }
    if e₁.ok > 0 then
      (e₂, some (korrel8r.Error.PartialError (second.2.getD (korrel8r.Error.Join []))))
    else (e₂, second.2)

/-- Where a goroutine stands in the body of `Log`. -/
inductive Pc where
  /-- Before `e.m.Lock()`: the call has not entered, or waits for the mutex. -/
  | atLock : Pc
  /-- Before `if err == nil { e.ok++ }`. -/
  | atCount : Pc
  /-- Before `e.errs.Add(err)`. -/
  | atAdd : Pc
  /-- Before `e.log.Error(err, msg, kv...)`. -/
  | atEmit : Pc
  /-- Before the deferred `e.m.Unlock()`, with the value to return; `none` when the sink call
  panicked. -/
  | atUnlock (ret : Option Bool) : Pc
  /-- After the call. -/
  | exited (ret : Option Bool) : Pc
  deriving DecidableEq

/-- Inside the critical section: between `Lock` and the deferred `Unlock`. -/
def Pc.inCritical : Pc → Bool
  | Pc.atCount => true
  | Pc.atAdd => true
  | Pc.atEmit => true
  | Pc.atUnlock _ => true
  | _ => false

/-- Concurrent calls of `Log` on one aggregator: the mutex `m` (the goroutine that holds it),
the fields of the aggregator, where each goroutine stands, and the order in which goroutines
acquired the mutex. -/
structure System (ε : Type) where
  m : Option Nat
  e : Errors ε
  pc : Nat → Pc
  hist : List Nat

/-- No goroutine has entered `Log` yet. -/
def System.init (e : Errors ε) : System ε :=
  { m := none, e := e, pc := fun _ => Pc.atLock, hist := [] }

/-- Goroutine `i`, which calls `Log(calls i)`, executes its next statement; `sinkPanics` tells
whether a call of the sink made in this step panics. A goroutine waiting for a held mutex and a
goroutine that has exited do nothing. -/
def System.step (key : ε → κ) (calls : Nat → LogCall ε) (s : System ε) (i : Nat)
    (sinkPanics : Bool) : System ε :=
  match s.pc i with
  | Pc.atLock =>
    match s.m with
    | none => { s with m := some i, pc := Function.update s.pc i Pc.atCount, hist := s.hist ++ [i] }
    | some _ => s
  | Pc.atCount =>
    { s with
      e := { s.e with ok := match (calls i).err with
                            | none => korrel8r.wrapInt (s.e.ok + 1)
                            | some _ => s.e.ok }
      pc := Function.update s.pc i Pc.atAdd }
  | Pc.atAdd =>
    { s with
      e := { s.e with errs := (s.e.errs.Add key (calls i).err).1 }
      pc := Function.update s.pc i
        (if (s.e.errs.Add key (calls i).err).2 then Pc.atEmit else Pc.atUnlock (some false)) }
  | Pc.atEmit =>
    if sinkPanics then { s with pc := Function.update s.pc i (Pc.atUnlock none) }
    else
      { s with
        e := { s.e with log := s.e.log ++ [(calls i).entry] }
        pc := Function.update s.pc i (Pc.atUnlock (some true)) }
  | Pc.atUnlock ret => { s with m := none, pc := Function.update s.pc i (Pc.exited ret) }
  | Pc.exited _ => s

/-- The system after a schedule: the goroutines take steps in the order of the schedule. -/
def System.run (key : ε → κ) (calls : Nat → LogCall ε) (s : System ε)
    (sched : List (Nat × Bool)) : System ε :=
  sched.foldl (fun s a => s.step key calls a.1 a.2) s

/-- The aggregator after the calls of the goroutines `hist`, made one after the other. -/
def serial (key : ε → κ) (calls : Nat → LogCall ε) (e : Errors ε) (hist : List Nat) : Errors ε :=
  e.LogAll key (hist.map calls)

/-- What holds of the error set and the counter while goroutine `i`, the last of the history
`h ++ [i]`, stands at `pc` inside the critical section. -/
def midCall (key : ε → κ) (calls : Nat → LogCall ε) (e₀ : Errors ε) (s : System ε)
    (h : List Nat) (i : Nat) : Pc → Prop
  | Pc.atCount =>
    s.e.errs = (serial key calls e₀ h).errs ∧ s.e.ok = (serial key calls e₀ h).ok
  | Pc.atAdd =>
    s.e.errs = (serial key calls e₀ h).errs ∧ s.e.ok = (serial key calls e₀ (h ++ [i])).ok
  | Pc.atEmit =>
    s.e.errs = (serial key calls e₀ (h ++ [i])).errs ∧ s.e.ok = (serial key calls e₀ (h ++ [i])).ok
  | Pc.atUnlock _ =>
    s.e.errs = (serial key calls e₀ (h ++ [i])).errs ∧ s.e.ok = (serial key calls e₀ (h ++ [i])).ok
  | _ => False

/-- The invariant of the system started from the aggregator `e₀`: only the holder of the mutex
is inside the critical section, and the error set and the counter are those of the calls of the
history made one after the other, up to the progress of the holder. -/
def System.Inv (key : ε → κ) (calls : Nat → LogCall ε) (e₀ : Errors ε) (s : System ε) : Prop :=
  (∀ j, (s.pc j).inCritical = true → s.m = some j) ∧
    match s.m with
    | none =>
      s.e.errs = (serial key calls e₀ s.hist).errs ∧ s.e.ok = (serial key calls e₀ s.hist).ok
    | some i => ∃ h, s.hist = h ++ [i] ∧ midCall key calls e₀ s h i (s.pc i)

end traverse

open korrel8r unique traverse

/-! ## Key-based selection of first occurrences -/

section KeepNew

variable {β κ : Type} [DecidableEq κ]

theorem keepNew_congr (k : β → Option κ) (bs : List β) :
    ∀ s₁ s₂ : List κ, (∀ q, q ∈ s₁ ↔ q ∈ s₂) → keepNew k s₁ bs = keepNew k s₂ bs := by
  induction bs with
  | nil => intro s₁ s₂ _; rfl
  | cons b bs ih =>
    intro s₁ s₂ h
    simp only [keepNew]
    cases hb : k b with
    | none => exact ih s₁ s₂ h
    | some q =>
      simp only []
      by_cases hq : q ∈ s₁
      · have hq2 : q ∈ s₂ := (h q).1 hq
        simp only [hq, hq2, if_true]
        exact ih s₁ s₂ h
      · have hq2 : q ∉ s₂ := fun h2 => hq ((h q).2 h2)
        simp only [hq, hq2, if_false]
        congr 1
        apply ih
        intro r
        simp only [List.mem_cons, h r]

theorem keepNew_mem_keys (k : β → Option κ) (bs : List β) :
    ∀ (seen : List κ) (q : κ),
      q ∈ (keepNew k seen bs).filterMap k ↔ q ∈ bs.filterMap k ∧ q ∉ seen := by
  induction bs with
  | nil => intro seen q; simp [keepNew]
  | cons b bs ih =>
    intro seen q
    simp only [keepNew]
    cases hb : k b with
    | none =>
      simp only [List.filterMap_cons, hb]
      exact ih seen q
    | some r =>
      simp only [List.filterMap_cons, hb]
      by_cases hr : r ∈ seen
      · simp only [hr, if_true, ih seen q, List.mem_cons]
        constructor
        · rintro ⟨h1, h2⟩; exact ⟨Or.inr h1, h2⟩
        · rintro ⟨h1 | h1, h2⟩
          · subst h1; exact absurd hr h2
          · exact ⟨h1, h2⟩
      · simp only [hr, if_false, List.filterMap_cons, hb, List.mem_cons, ih (r :: seen) q]
        constructor
        · rintro (h1 | ⟨h1, h2⟩)
          · subst h1; exact ⟨Or.inl rfl, hr⟩
          · exact ⟨Or.inr h1, fun h3 => h2 (Or.inr h3)⟩
        · rintro ⟨h1 | h1, h2⟩
          · exact Or.inl h1
          · by_cases hqr : q = r
            · exact Or.inl hqr
            · right
              refine ⟨h1, ?_⟩
              rintro (h3 | h3)
              · exact hqr h3
              · exact h2 h3

theorem keepNew_nodup_keys (k : β → Option κ) (bs : List β) :
    ∀ seen : List κ, ((keepNew k seen bs).filterMap k).Nodup := by
  induction bs with
  | nil => intro seen; simp [keepNew]
  | cons b bs ih =>
    intro seen
    simp only [keepNew]
    cases hb : k b with
    | none => exact ih seen
    | some r =>
      simp only []
      by_cases hr : r ∈ seen
      · simp only [hr, if_true]; exact ih seen
      · simp only [hr, if_false, List.filterMap_cons, hb]
        refine List.nodup_cons.2 ⟨?_, ih (r :: seen)⟩
        intro hmem
        exact ((keepNew_mem_keys k bs (r :: seen) r).1 hmem).2 (List.mem_cons_self r seen)

theorem keepNew_isSome (k : β → Option κ) (bs : List β) :
    ∀ (seen : List κ) (b : β), b ∈ keepNew k seen bs → ∃ q, k b = some q := by
  induction bs with
  | nil => intro seen b h; simp [keepNew] at h
  | cons c bs ih =>
    intro seen b h
    simp only [keepNew] at h
    cases hc : k c with
    | none => rw [hc] at h; exact ih seen b h
    | some r =>
      rw [hc] at h
      simp only [] at h
      by_cases hr : r ∈ seen
      · simp only [hr, if_true] at h; exact ih seen b h
      · simp only [hr, if_false, List.mem_cons] at h
        rcases h with h | h
        · subst h; exact ⟨r, hc⟩
        · exact ih (r :: seen) b h

theorem keepNew_sublist (k : β → Option κ) (bs : List β) :
    ∀ seen : List κ, (keepNew k seen bs).Sublist bs := by
  induction bs with
  | nil => intro seen; simp [keepNew]
  | cons c bs ih =>
    intro seen
    simp only [keepNew]
    cases hc : k c with
    | none => exact (ih seen).cons c
    | some r =>
      simp only []
      by_cases hr : r ∈ seen
      · simp only [hr, if_true]; exact (ih seen).cons c
      · simp only [hr, if_false]; exact (ih (r :: seen)).cons₂ c

theorem keepNew_length_keys (k : β → Option κ) (bs : List β) (seen : List κ) :
    ((keepNew k seen bs).filterMap k).length = (keepNew k seen bs).length := by
  have h := keepNew_isSome k bs seen
  generalize keepNew k seen bs = l at h
  induction l with
  | nil => rfl
  | cons b l ih =>
    obtain ⟨q, hq⟩ := h b (List.mem_cons_self b l)
    simp only [List.filterMap_cons, hq, List.length_cons]
    rw [ih (fun c hc => h c (List.mem_cons_of_mem b hc))]

end KeepNew

theorem isFirstAt_append_length {β κ : Type} (k : β → Option κ) (p : List β) (v : β) (rest : List β) :
    isFirstAt k (p ++ v :: rest) p.length ↔ ∃ q, k v = some q ∧ q ∉ p.filterMap k := by
  have hv : (p ++ v :: rest)[p.length]? = some v := by
    rw [List.getElem?_append_right (Nat.le_refl _), Nat.sub_self, List.getElem?_cons_zero]
  have hj : ∀ j, j < p.length → (p ++ v :: rest)[j]? = p[j]? := fun j hlt =>
    List.getElem?_append_left hlt
  unfold isFirstAt
  rw [hv]
  simp only [Option.some_bind]
  constructor
  · rintro ⟨hs, hne⟩
    obtain ⟨q, hq⟩ := Option.isSome_iff_exists.1 hs
    refine ⟨q, hq, ?_⟩
    intro hmem
    obtain ⟨a, ha, hka⟩ := List.mem_filterMap.1 hmem
    obtain ⟨j, hlt, hja⟩ := List.mem_iff_getElem.1 ha
    apply hne j hlt
    rw [hj j hlt, List.getElem?_eq_getElem hlt, hja, Option.some_bind, hka, hq]
  · rintro ⟨q, hq, hnot⟩
    refine ⟨by rw [hq]; rfl, ?_⟩
    intro j hlt heq
    apply hnot
    rw [hj j hlt, List.getElem?_eq_getElem hlt, Option.some_bind, hq] at heq
    exact List.mem_filterMap.2 ⟨p[j], List.getElem_mem hlt, heq⟩

section FirstAt

variable {β κ : Type} [DecidableEq κ]

theorem keepNew_eq_filter_range' (k : β → Option κ) (s : List β) :
    ∀ p : List β,
      ((List.range' p.length s.length).filter (fun i => isFirstAt k (p ++ s) i)).filterMap
          (fun i => (p ++ s)[i]?) = keepNew k (p.filterMap k) s := by
  induction s with
  | nil => intro p; simp [keepNew]
  | cons v rest ih =>
    intro p
    have htail := ih (p ++ [v])
    have happ : (p ++ [v]) ++ rest = p ++ v :: rest := by simp
    have hlen : (p ++ [v]).length = p.length + 1 := by simp
    rw [happ, hlen] at htail
    have hv : (p ++ v :: rest)[p.length]? = some v := by
      rw [List.getElem?_append_right (Nat.le_refl _), Nat.sub_self, List.getElem?_cons_zero]
    rw [List.length_cons, List.range'_succ, List.filter_cons]
    simp only [keepNew]
    cases hk : k v with
    | none =>
      have hno : ¬ isFirstAt k (p ++ v :: rest) p.length := by
        rw [isFirstAt_append_length]; rintro ⟨q, hq, _⟩; rw [hk] at hq; cases hq
      simp only [hno, decide_False, Bool.false_eq_true, if_false]
      rw [htail]
      simp [List.filterMap_append, hk]
    | some q =>
      simp only []
      by_cases hq : q ∈ p.filterMap k
      · have hno : ¬ isFirstAt k (p ++ v :: rest) p.length := by
          rw [isFirstAt_append_length]
          rintro ⟨r, hr, hnot⟩
          rw [hk] at hr
          cases hr
          exact hnot hq
        simp only [hno, decide_False, Bool.false_eq_true, if_false, hq, if_true]
        rw [htail]
        apply keepNew_congr
        intro r
        simp only [List.filterMap_append, List.mem_append, List.filterMap_cons, hk,
          List.filterMap_nil, List.mem_singleton]
        constructor
        · rintro (h | h)
          · exact h
          · subst h; exact hq
        · exact Or.inl
      · have hyes : isFirstAt k (p ++ v :: rest) p.length := by
          rw [isFirstAt_append_length]; exact ⟨q, hk, hq⟩
        simp only [hyes, decide_True, if_true, hq, if_false, List.filterMap_cons, hv]
        rw [htail]
        congr 1
        apply keepNew_congr
        intro r
        simp only [List.filterMap_append, List.mem_append, List.filterMap_cons, hk,
          List.filterMap_nil, List.mem_singleton, List.mem_cons, List.not_mem_nil, or_false]
        exact Or.comm

theorem keepNew_eq_filter_range (k : β → Option κ) (xs : List β) :
    ((List.range xs.length).filter (fun i => isFirstAt k xs i)).filterMap (fun i => xs[i]?)
      = keepNew k [] xs := by
  have h := keepNew_eq_filter_range' k xs []
  simpa [List.range_eq_range'] using h

end FirstAt

/-! ## `unique.Copy` and `unique.InPlace` -/

section CopyInPlace

variable {α κ : Type} [DecidableEq κ]

theorem copyLoop_eq (key : α → κ) (xs : List α) :
    ∀ (seen : List κ) (result : Option (List α)),
      copyLoop key xs seen result =
        if (keepNew (fun a => some (key a)) seen xs).isEmpty then result
        else some (result.getD [] ++ keepNew (fun a => some (key a)) seen xs) := by
  induction xs with
  | nil => intro seen result; simp [copyLoop, keepNew]
  | cons v rest ih =>
    intro seen result
    simp only [copyLoop, keepNew]
    by_cases hv : key v ∈ seen
    · simp only [hv, if_true]; exact ih seen result
    · simp only [hv, if_false, List.isEmpty_cons, Bool.false_eq_true]
      rw [ih (key v :: seen) (sliceAppend result v)]
      simp only [sliceAppend, Option.getD_some, List.append_assoc, List.singleton_append]
      split
      · next h => rw [List.isEmpty_iff.1 h]
      · rfl

theorem copy_elems (key : α → κ) (list : Option (List α)) :
    (Copy list key).getD [] = keepNew (fun a => some (key a)) [] (list.getD []) := by
  unfold Copy
  rw [copyLoop_eq]
  split
  · next h => rw [List.isEmpty_iff.1 h]; rfl
  · simp

theorem inPlaceLoop_eq (key : α → κ) (n : Nat) :
    ∀ (buf : List α) (seen : List κ) (i j : Nat), i + n = buf.length → j ≤ i →
      (inPlaceLoop key n buf seen i j).1.take (inPlaceLoop key n buf seen i j).2 =
        buf.take j ++ keepNew (fun a => some (key a)) seen (buf.drop i) := by
  induction n with
  | zero =>
    intro buf seen i j hlen _
    have hi : buf.length ≤ i := by omega
    simp [inPlaceLoop, List.drop_eq_nil_of_le hi, keepNew]
  | succ n ih =>
    intro buf seen i j hlen hji
    have hi : i < buf.length := by omega
    have hget : buf[i]? = some buf[i] := List.getElem?_eq_getElem hi
    have hdrop : buf.drop i = buf[i] :: buf.drop (i + 1) := List.drop_eq_getElem_cons hi
    simp only [inPlaceLoop, hget]
    rw [hdrop]
    simp only [keepNew]
    by_cases hv : key buf[i] ∈ seen
    · simp only [hv, if_true]
      exact ih buf seen (i + 1) j (by omega) (by omega)
    · simp only [hv, if_false]
      have hj : j < buf.length := by omega
      rw [ih (buf.set j buf[i]) (key buf[i] :: seen) (i + 1) (j + 1)
        (by rw [List.length_set]; omega) (by omega)]
      have h1 : (buf.set j buf[i]).take (j + 1) = buf.take j ++ [buf[i]] := by
        have h0 : (buf.set j buf[i]).take j = buf.take j := by
          rw [List.set_take]
          exact List.set_eq_of_length_le (by rw [List.length_take]; omega)
        rw [List.take_succ, h0]
        simp [List.getElem?_set, hj]
      have h2 : (buf.set j buf[i]).drop (i + 1) = buf.drop (i + 1) :=
        List.drop_set_of_lt _ _ (by omega)
      rw [h1, h2]
      simp

theorem inPlace_elems (key : α → κ) (xs : List α) :
    InPlace (some xs) key = some (keepNew (fun a => some (key a)) [] xs) := by
  simp only [InPlace]
  rw [inPlaceLoop_eq key xs.length xs [] 0 0 (by simp) (Nat.le_refl 0)]
  simp

theorem firstOccurrences_eq_keepNew (key : α → κ) (xs : List α) :
    firstOccurrences key xs = keepNew (fun a => some (key a)) [] xs := by
  rw [← keepNew_eq_filter_range]
  unfold firstOccurrences
  congr 1
  apply List.filter_congr
  intro i hi
  have hlt : i < xs.length := List.mem_range.1 hi
  have hb : ∀ o : Option α, o.bind (fun a => some (key a)) = o.map key := by
    intro o; cases o <;> rfl
  have hiff : isFirstOfKey key xs i ↔ isFirstAt (fun a => some (key a)) xs i := by
    unfold isFirstOfKey isFirstAt
    simp only [hb]
    constructor
    · intro h
      exact ⟨by simp [List.getElem?_eq_getElem hlt], h⟩
    · exact fun h => h.2
  simp only [hiff]

end CopyInPlace

/-! ## Go `int` arithmetic -/

theorem wrapInt_of_inRange (x : Int) (hlo : -2 ^ 63 ≤ x) (hhi : x < 2 ^ 63) : wrapInt x = x := by
  unfold wrapInt
  omega

theorem wrapInt_wrapInt_add (a b : Int) : wrapInt (wrapInt a + b) = wrapInt (a + b) := by
  unfold wrapInt
  omega

theorem wrapInt_wrapInt (a : Int) : wrapInt (wrapInt a) = wrapInt a := by
  unfold wrapInt
  omega

/-! ## `traverse.Errors` -/

section Traverse

variable {ε κ : Type} [DecidableEq κ]

theorem LogAll_cons (key : ε → κ) (e : traverse.Errors ε) (c : LogCall ε) (cs : List (LogCall ε)) :
    e.LogAll key (c :: cs) = (e.Log key c.err c.msg c.kv).1.LogAll key cs := rfl

theorem LogAll_append (key : ε → κ) (e : traverse.Errors ε) (pre post : List (LogCall ε)) :
    e.LogAll key (pre ++ post) = (e.LogAll key pre).LogAll key post := by
  simp [traverse.Errors.LogAll, List.foldl_append]

theorem Log_nil (key : ε → κ) (e : traverse.Errors ε) (msg : String) (kv : List String) :
    e.Log key none msg kv = ({ errs := e.errs, ok := wrapInt (e.ok + 1), log := e.log }, false) := by
  simp [traverse.Errors.Log, unique.Errors.Add]

theorem Log_seen (key : ε → κ) (e : traverse.Errors ε) (x : ε) (msg : String) (kv : List String)
    (h : key x ∈ e.errs.errs.map key) :
    e.Log key (some x) msg kv = ({ errs := e.errs, ok := e.ok, log := e.log }, false) := by
  simp only [traverse.Errors.Log, unique.Errors.Add, h, if_true, Bool.false_eq_true, if_false]

theorem Log_new (key : ε → κ) (e : traverse.Errors ε) (x : ε) (msg : String) (kv : List String)
    (h : key x ∉ e.errs.errs.map key) :
    e.Log key (some x) msg kv =
      ({ errs := { errs := e.errs.errs ++ [x] }, ok := e.ok,
         log := e.log ++ [{ err := some x, msg := msg, kv := kv }] }, true) := by
  simp only [traverse.Errors.Log, unique.Errors.Add, h, if_false, if_true]

theorem LogAll_errs_log (key : ε → κ) (calls : List (LogCall ε)) :
    ∀ e : traverse.Errors ε,
      (e.LogAll key calls).errs.errs =
          e.errs.errs ++
            (keepNew (fun c : LogCall ε => c.err.map key) (e.errs.errs.map key) calls).filterMap
              (fun c => c.err) ∧
        (e.LogAll key calls).log =
          e.log ++
            (keepNew (fun c : LogCall ε => c.err.map key) (e.errs.errs.map key) calls).map
              LogCall.entry := by
  induction calls with
  | nil => intro e; simp [traverse.Errors.LogAll, keepNew]
  | cons c cs ih =>
    intro e
    rw [LogAll_cons]
    obtain ⟨err, msg, kv⟩ := c
    cases err with
    | none =>
      simp only [Log_nil, keepNew, Option.map_none']
      exact ih _
    | some x =>
      by_cases h : key x ∈ e.errs.errs.map key
      · simp only [Log_seen key e x msg kv h, keepNew, Option.map_some', h, if_true]
        exact ih _
      · simp only [Log_new key e x msg kv h, keepNew, Option.map_some', h, if_false]
        have hc : keepNew (fun c : LogCall ε => c.err.map key)
              ((e.errs.errs ++ [x]).map key) cs =
            keepNew (fun c : LogCall ε => c.err.map key) (key x :: e.errs.errs.map key) cs := by
          apply keepNew_congr
          intro q
          simp only [List.map_append, List.map_cons, List.map_nil, List.mem_append,
            List.mem_singleton, List.mem_cons, List.not_mem_nil, or_false]
          exact Or.comm
        have h2 := ih ⟨⟨e.errs.errs ++ [x]⟩, e.ok, e.log ++ [⟨some x, msg, kv⟩]⟩
        simp only [hc] at h2
        refine ⟨?_, ?_⟩
        · rw [h2.1]; simp
        · rw [h2.2]; simp [LogCall.entry]

theorem LogAll_ok (key : ε → κ) (calls : List (LogCall ε)) :
    ∀ e : traverse.Errors ε, wrapInt e.ok = e.ok →
      (e.LogAll key calls).ok = wrapInt (e.ok + (successes calls : Nat)) := by
  induction calls with
  | nil => intro e he; simpa [traverse.Errors.LogAll, successes] using he.symm
  | cons c cs ih =>
    intro e he
    rw [LogAll_cons]
    obtain ⟨err, msg, kv⟩ := c
    cases err with
    | none =>
      rw [Log_nil]
      rw [ih _ (wrapInt_wrapInt (e.ok + 1))]
      simp only [successes, List.filter_cons, Option.isNone_none, if_true, List.length_cons]
      rw [wrapInt_wrapInt_add]
      congr 1
      push_cast
      ring
    | some x =>
      have hok : ∀ r : traverse.Errors ε × Bool, r = e.Log key (some x) msg kv → r.1.ok = e.ok := by
        intro r hr
        by_cases h : key x ∈ e.errs.errs.map key
        · rw [hr, Log_seen key e x msg kv h]
        · rw [hr, Log_new key e x msg kv h]
      have h1 := hok _ rfl
      rw [ih _ (by rw [h1]; exact he), h1]
      simp [successes]

theorem firstReports_eq_keepNew (key : ε → κ) (calls : List (LogCall ε)) :
    firstReports key calls = keepNew (fun c : LogCall ε => c.err.map key) [] calls := by
  rw [← keepNew_eq_filter_range]
  unfold firstReports
  congr 1
  apply List.filter_congr
  intro i _
  have hb : ∀ o : Option (LogCall ε),
      o.bind (fun c => c.err.map key) = (o.bind (fun c => c.err)).map key := by
    intro o; cases o <;> rfl
  have hiff : isFirstReport key calls i ↔ isFirstAt (fun c : LogCall ε => c.err.map key) calls i := by
    unfold isFirstReport isFirstAt
    simp only [hb, Option.isSome_map']
  simp only [hiff]

end Traverse

theorem reportedKeys_eq {ε κ : Type} (key : ε → κ) (calls : List (LogCall ε)) :
    reportedKeys key calls = calls.filterMap (fun c : LogCall ε => c.err.map key) := by
  unfold reportedKeys
  rw [List.map_filterMap]

theorem successes_replicate {ε : Type} (msg : String) (kv : List String) (n : Nat) :
    successes (List.replicate n (⟨none, msg, kv⟩ : LogCall ε)) = n := by
  induction n with
  | zero => rfl
  | succ n ih =>
    unfold successes at ih ⊢
    rw [List.replicate_succ, List.filter_cons]
    simp only [Option.isNone_none, if_true, List.length_cons, ih]

section TraverseFacts

variable {ε κ : Type} [DecidableEq κ]

theorem Err_eq_none_iff (e : traverse.Errors ε) : e.Err = none ↔ e.errs.errs = [] := by
  unfold traverse.Errors.Err unique.Errors.Err
  cases h : e.errs.errs with
  | nil => simp
  | cons x xs =>
    simp only []
    split <;> simp

theorem LogAll_errs_nil (key : ε → κ) (calls : List (LogCall ε)) :
    ∀ e : traverse.Errors ε,
      (e.LogAll key calls).errs.errs = [] ↔ e.errs.errs = [] ∧ ∀ c ∈ calls, c.err = none := by
  induction calls with
  | nil => intro e; simp [traverse.Errors.LogAll]
  | cons c cs ih =>
    intro e
    rw [LogAll_cons, ih]
    obtain ⟨err, msg, kv⟩ := c
    cases err with
    | none => simp [Log_nil]
    | some x =>
      by_cases h : key x ∈ e.errs.errs.map key
      · have hne : e.errs.errs ≠ [] := by
          intro h0; rw [h0] at h; simp at h
        simp [Log_seen key e x msg kv h, hne]
      · simp [Log_new key e x msg kv h]

theorem error_ne_PartialError (c : Error ε) : c ≠ Error.PartialError c := by
  intro h
  have := congrArg sizeOf h
  simp at this

end TraverseFacts

/-! ## The tests of `unique_test.go`, run on the embedding -/

/-- `TestCopy`, first assertion. -/
theorem TestCopy_ints :
    Copy (some [1, 2, 1, 3, 4, 5, 3, 6, 6]) (Same : Nat → Nat) = some [1, 2, 3, 4, 5, 6] := by
  decide

/-- `TestCopy`, second assertion: the key is the first character. -/
theorem TestCopy_strings :
    Copy (some ["a1", "b1", "a2", "c2", "d2", "d3"]) (fun s : String => s.data.take 1)
      = some ["a1", "b1", "c2", "d2"] := by
  decide

/-- `TestInPlace`, first assertion. -/
theorem TestInPlace_ints :
    InPlace (some [1, 2, 1, 3, 4, 5, 3, 6, 6]) (Same : Nat → Nat) = some [1, 2, 3, 4, 5, 6] := by
  decide

/-- `TestInPlace`, second assertion: the key is the first character. -/
theorem TestInPlace_strings :
    InPlace (some ["a1", "b1", "a2", "c2", "d2", "d3"]) (fun s : String => s.data.take 1)
      = some ["a1", "b1", "c2", "d2"] := by
  decide

/-! ## The claims -/

section Claims

variable {α ε κ : Type} [DecidableEq κ]

/-- C1: in every aggregator state in which an error has been recorded (`errs.Err()` is the
non-nil value `combined`) and the success counter is greater than zero, `Err` returns a
`PartialError` whose field `Err` is exactly the combined error of the error set. -/
theorem C1_Err_partial_failure (e : traverse.Errors ε) (combined : Error ε)
    (herr : e.errs.Err = some combined) (hok : e.ok > 0) :
    e.Err = some (Error.PartialError combined) := by
  unfold traverse.Errors.Err
  rw [herr]
  simp only [hok, if_true]

/-- C2: in every aggregator state in which an error has been recorded (`errs.Err()` is the
non-nil value `combined`) and the success counter is zero, `Err` returns the combined error
itself, and not a `PartialError` around it. -/
theorem C2_Err_total_failure (e : traverse.Errors ε) (combined : Error ε)
    (herr : e.errs.Err = some combined) (hok : e.ok = 0) :
    e.Err = some combined ∧ e.Err = e.errs.Err ∧ e.Err ≠ some (Error.PartialError combined) := by
  have h : e.Err = some combined := by
    unfold traverse.Errors.Err
    rw [herr]
    simp [hok]
  refine ⟨h, by rw [h, herr], ?_⟩
  rw [h]
  intro hc
  exact error_ne_PartialError combined (Option.some.inj hc)

/-- C3: after any finite sequence of `Log` calls on an aggregator made by `NewErrors`, `Err`
returns nil if and only if no call of the sequence had a non-nil `err`, whatever the number of
calls with a nil `err` (the empty sequence included). -/
theorem C3_Err_nil_iff_no_error (key : ε → κ) (log : List (LogEntry ε))
    (calls : List (LogCall ε)) :
    ((NewErrors log).LogAll key calls).Err = none ↔ ∀ c ∈ calls, c.err = none := by
  rw [Err_eq_none_iff, LogAll_errs_nil]
  simp [NewErrors]

/-- C4: after any finite sequence of `Log` calls on an aggregator made by `NewErrors`, the
entries emitted to the sink are exactly the first reports of each error class, in call order,
after what the sink held before; their number is the number of distinct keys among the non-nil
errors reported, and every reported key is logged exactly once. -/
theorem C4_one_log_entry_per_class (key : ε → κ) (log : List (LogEntry ε))
    (calls : List (LogCall ε)) :
    ((NewErrors log).LogAll key calls).log = log ++ (firstReports key calls).map LogCall.entry ∧
      (firstReports key calls).length = (reportedKeys key calls).toFinset.card ∧
      ∀ q ∈ reportedKeys key calls,
        ((firstReports key calls).filterMap (fun c => c.err.map key)).count q = 1 := by
  have hnd := keepNew_nodup_keys (fun c : LogCall ε => c.err.map key) calls []
  have hmem := keepNew_mem_keys (fun c : LogCall ε => c.err.map key) calls []
  refine ⟨?_, ?_, ?_⟩
  · rw [(LogAll_errs_log key calls (NewErrors log)).2, firstReports_eq_keepNew]
    simp [NewErrors]
  · rw [firstReports_eq_keepNew, ← keepNew_length_keys, ← List.toFinset_card_of_nodup hnd]
    congr 1
    ext q
    simp only [List.mem_toFinset, hmem q, reportedKeys_eq, List.not_mem_nil, not_false_eq_true,
      and_true]
  · intro q hq
    rw [firstReports_eq_keepNew]
    apply List.count_eq_one_of_mem hnd
    rw [hmem q, ← reportedKeys_eq]
    exact ⟨hq, List.not_mem_nil q⟩

/-- C5: in every aggregator state and for every `err`, `Log(err, msg, kv...)` returns true if
and only if `err` is non-nil and no error with the same equivalence key was recorded in the
error set before the call; otherwise it returns false. -/
theorem C5_Log_true_iff_new (key : ε → κ) (e : traverse.Errors ε) (err : Option ε)
    (msg : String) (kv : List String) :
    (e.Log key err msg kv).2 = true ↔ ∃ x, err = some x ∧ ∀ y ∈ e.errs.errs, key y ≠ key x := by
  cases err with
  | none => simp [Log_nil]
  | some x =>
    by_cases h : key x ∈ e.errs.errs.map key
    · rw [Log_seen key e x msg kv h]
      simp only [Bool.false_eq_true, Option.some.injEq, exists_eq_left', false_iff]
      intro hall
      obtain ⟨y, hy, hk⟩ := List.mem_map.1 h
      exact hall y hy hk
    · rw [Log_new key e x msg kv h]
      simp only [Option.some.injEq, exists_eq_left', true_iff]
      intro y hy hk
      exact h (List.mem_map.2 ⟨y, hy, hk⟩)

/-- C1 at a state with one recorded error and one success. -/
theorem C1_Err_partial_failure_witness :
    (⟨⟨[7]⟩, 1, []⟩ : traverse.Errors Nat).errs.Err = some (Error.Join [7]) ∧
      (⟨⟨[7]⟩, 1, []⟩ : traverse.Errors Nat).ok > 0 ∧
      (⟨⟨[7]⟩, 1, []⟩ : traverse.Errors Nat).Err = some (Error.PartialError (Error.Join [7])) :=
  ⟨rfl, by decide, C1_Err_partial_failure ⟨⟨[7]⟩, 1, []⟩ (Error.Join [7]) rfl (by decide)⟩

/-- C2 at a state with two recorded errors and no success. -/
theorem C2_Err_total_failure_witness :
    (⟨⟨[7, 8]⟩, 0, []⟩ : traverse.Errors Nat).errs.Err = some (Error.Join [7, 8]) ∧
      (⟨⟨[7, 8]⟩, 0, []⟩ : traverse.Errors Nat).ok = 0 ∧
      (⟨⟨[7, 8]⟩, 0, []⟩ : traverse.Errors Nat).Err = some (Error.Join [7, 8]) :=
  ⟨rfl, rfl, (C2_Err_total_failure ⟨⟨[7, 8]⟩, 0, []⟩ (Error.Join [7, 8]) rfl rfl).1⟩

/-- C4 at three reports of two error classes (key: the value modulo 10): the class of 1 and 11
is counted once. -/
theorem C4_one_log_entry_per_class_witness :
    (1 : Nat) ∈ reportedKeys (fun n : Nat => n % 10) [⟨some 1, "a", []⟩, ⟨some 2, "b", []⟩, ⟨some 11, "c", []⟩] ∧
      ((firstReports (fun n : Nat => n % 10)
          [⟨some 1, "a", []⟩, ⟨some 2, "b", []⟩, ⟨some 11, "c", []⟩]).filterMap
            (fun c => c.err.map (fun n : Nat => n % 10))).count 1 = 1 :=
  ⟨by decide,
    (C4_one_log_entry_per_class (fun n : Nat => n % 10) []
      [⟨some 1, "a", []⟩, ⟨some 2, "b", []⟩, ⟨some 11, "c", []⟩]).2.2 1 (by decide)⟩

/-- C6, as stated, fails where the success counter holds the largest `int`: the increment wraps
around to the smallest `int` instead of adding one. -/
theorem C6_counterexample :
    ¬ (((⟨⟨[]⟩, 2 ^ 63 - 1, []⟩ : traverse.Errors Nat).Log (fun n : Nat => n) none "" []).2 = false ∧
        ((⟨⟨[]⟩, 2 ^ 63 - 1, []⟩ : traverse.Errors Nat).Log (fun n : Nat => n) none "" []).1.log = [] ∧
        ((⟨⟨[]⟩, 2 ^ 63 - 1, []⟩ : traverse.Errors Nat).Log (fun n : Nat => n) none "" []).1.errs = ⟨[]⟩ ∧
        ((⟨⟨[]⟩, 2 ^ 63 - 1, []⟩ : traverse.Errors Nat).Log (fun n : Nat => n) none "" []).1.ok
          = (2 ^ 63 - 1) + 1) := by
  decide

/-- C6 (amended): in every aggregator state, `Log(nil, msg, kv...)` returns false, emits no log
entry and leaves the error set, hence the combined error, unchanged; it increases the success
counter by exactly one when the counter is below the largest `int`, and wraps it around to the
smallest `int` when the counter is the largest `int`. -/
theorem C6_Log_nil_frame (key : ε → κ) (e : traverse.Errors ε) (msg : String) (kv : List String) :
    (e.Log key none msg kv).2 = false ∧
      (e.Log key none msg kv).1.log = e.log ∧
      (e.Log key none msg kv).1.errs = e.errs ∧
      (e.Log key none msg kv).1.errs.Err = e.errs.Err ∧
      (-2 ^ 63 ≤ e.ok → e.ok < 2 ^ 63 - 1 → (e.Log key none msg kv).1.ok = e.ok + 1) ∧
      (e.ok = 2 ^ 63 - 1 → (e.Log key none msg kv).1.ok = -2 ^ 63) := by
  rw [Log_nil]
  refine ⟨rfl, rfl, rfl, rfl, ?_, ?_⟩
  · intro hlo hhi
    exact wrapInt_of_inRange (e.ok + 1) (by omega) (by omega)
  · intro h
    simp only [h]
    decide

/-- C6 at the state made by `NewErrors`: the counter goes from 0 to 1. -/
theorem C6_Log_nil_frame_witness :
    -2 ^ 63 ≤ (NewErrors ([] : List (LogEntry Nat))).ok ∧
      (NewErrors ([] : List (LogEntry Nat))).ok < 2 ^ 63 - 1 ∧
      ((NewErrors ([] : List (LogEntry Nat))).Log (fun n : Nat => n) none "done" []).1.ok
        = (NewErrors ([] : List (LogEntry Nat))).ok + 1 :=
  ⟨by decide, by decide,
    (C6_Log_nil_frame (fun n : Nat => n) (NewErrors []) "done" []).2.2.2.2.1 (by decide) (by decide)⟩

/-- C7, as stated, fails for the sequence of `2^63` calls with a nil `err`: the counter has
wrapped around and is not the number of calls. -/
theorem C7_counterexample :
    ((NewErrors ([] : List (LogEntry Nat))).LogAll (fun n : Nat => n)
        (List.replicate (2 ^ 63) ⟨none, "", []⟩)).ok ≠
      ((successes (List.replicate (2 ^ 63) (⟨none, "", []⟩ : LogCall Nat)) : Nat) : Int) := by
  rw [LogAll_ok (fun n : Nat => n) _ (NewErrors []) (by decide), successes_replicate]
  have h : (NewErrors ([] : List (LogEntry Nat))).ok = 0 := rfl
  rw [h]
  unfold wrapInt
  norm_num

/-- C7 (amended): after any finite sequence of `Log` calls on an aggregator made by `NewErrors`,
the success counter is the number of calls with a nil `err` reduced to the range of `int` by
wrap-around, hence that number itself while it is below `2^63`. The counter starts at 0, is left
unchanged by every non-nil report, is increased by one by a nil report while the number of nil
reports stays below `2^63`, and under that bound it never decreases. -/
theorem C7_success_counter (key : ε → κ) (log : List (LogEntry ε)) (calls : List (LogCall ε)) :
    (NewErrors log).ok = 0 ∧
      ((NewErrors log).LogAll key calls).ok = wrapInt (successes calls : Nat) ∧
      (((successes calls : Nat) : Int) < 2 ^ 63 →
        ((NewErrors log).LogAll key calls).ok = (successes calls : Nat)) ∧
      (∀ (x : ε) (msg : String) (kv : List String),
        (((NewErrors log).LogAll key calls).Log key (some x) msg kv).1.ok =
          ((NewErrors log).LogAll key calls).ok) ∧
      (((successes calls : Nat) : Int) + 1 < 2 ^ 63 → ∀ (msg : String) (kv : List String),
        (((NewErrors log).LogAll key calls).Log key none msg kv).1.ok =
          ((NewErrors log).LogAll key calls).ok + 1) ∧
      (∀ pre post : List (LogCall ε), calls = pre ++ post →
        ((successes calls : Nat) : Int) < 2 ^ 63 →
        ((NewErrors log).LogAll key pre).ok ≤ ((NewErrors log).LogAll key calls).ok) := by
  have h0 : wrapInt (NewErrors log).ok = (NewErrors log).ok := by
    show wrapInt 0 = 0
    decide
  have hz : (NewErrors log).ok = 0 := rfl
  have hall : ∀ cs : List (LogCall ε),
      ((NewErrors log).LogAll key cs).ok = wrapInt (successes cs : Nat) := by
    intro cs
    rw [LogAll_ok key cs (NewErrors log) h0, hz, Int.zero_add]
  have hsmall : ∀ cs : List (LogCall ε), ((successes cs : Nat) : Int) < 2 ^ 63 →
      ((NewErrors log).LogAll key cs).ok = (successes cs : Nat) := by
    intro cs hlt
    rw [hall cs]
    exact wrapInt_of_inRange _ (by omega) hlt
  refine ⟨rfl, hall calls, hsmall calls, ?_, ?_, ?_⟩
  · intro x msg kv
    by_cases h : key x ∈ ((NewErrors log).LogAll key calls).errs.errs.map key
    · rw [Log_seen key _ x msg kv h]
    · rw [Log_new key _ x msg kv h]
  · intro hlt msg kv
    rw [Log_nil, hsmall calls (by omega)]
    exact wrapInt_of_inRange _ (by omega) (by omega)
  · intro pre post hsplit hlt
    have hle : successes pre ≤ successes calls := by
      rw [hsplit]
      unfold successes
      rw [List.filter_append, List.length_append]
      omega
    rw [hsmall calls hlt, hsmall pre (by omega)]
    exact_mod_cast hle

/-- C7 at two successes around one error: the counter is 2. -/
theorem C7_success_counter_witness :
    ((successes ([⟨none, "a", []⟩, ⟨some 5, "b", []⟩, ⟨none, "c", []⟩] : List (LogCall Nat)) : Nat) : Int)
        < 2 ^ 63 ∧
      ((NewErrors ([] : List (LogEntry Nat))).LogAll (fun n : Nat => n)
        [⟨none, "a", []⟩, ⟨some 5, "b", []⟩, ⟨none, "c", []⟩]).ok =
      (successes ([⟨none, "a", []⟩, ⟨some 5, "b", []⟩, ⟨none, "c", []⟩] : List (LogCall Nat)) : Nat) :=
  ⟨by decide,
    (C7_success_counter (fun n : Nat => n) []
      [⟨none, "a", []⟩, ⟨some 5, "b", []⟩, ⟨none, "c", []⟩]).2.2.1 (by decide)⟩

/-- C8: for every input and key function, `Copy` returns the subsequence of the input made of
exactly the elements that no earlier element shares the key of; every key of the input occurs
exactly once among the keys of the output, and the output keeps the order of the input. -/
theorem C8_Copy_first_occurrences (key : α → κ) (list : Option (List α)) :
    (Copy list key).getD [] = firstOccurrences key (list.getD []) ∧
      (∀ x ∈ list.getD [], (((Copy list key).getD []).map key).count (key x) = 1) ∧
      ((Copy list key).getD []).Sublist (list.getD []) := by
  have hk : ∀ l : List α, l.filterMap (fun a => some (key a)) = l.map key := by
    intro l
    induction l with
    | nil => rfl
    | cons a l ih => simp [List.filterMap_cons, ih]
  refine ⟨?_, ?_, ?_⟩
  · rw [copy_elems, firstOccurrences_eq_keepNew]
  · intro x hx
    rw [copy_elems, ← hk]
    apply List.count_eq_one_of_mem (keepNew_nodup_keys _ _ _)
    rw [keepNew_mem_keys, hk]
    exact ⟨List.mem_map_of_mem key hx, List.not_mem_nil _⟩
  · rw [copy_elems]
    exact keepNew_sublist _ _ _

/-- C8 at the input of the test of `Copy` keyed by the first character (here: the tens digit):
the key of 12 occurs once in the output. -/
theorem C8_Copy_first_occurrences_witness :
    (12 : Nat) ∈ (some [11, 21, 12, 32, 42, 43] : Option (List Nat)).getD [] ∧
      (((Copy (some [11, 21, 12, 32, 42, 43]) (fun n : Nat => n / 10)).getD []).map
        (fun n : Nat => n / 10)).count ((fun n : Nat => n / 10) 12) = 1 :=
  ⟨by decide,
    (C8_Copy_first_occurrences (fun n : Nat => n / 10) (some [11, 21, 12, 32, 42, 43])).2.1 12
      (by decide)⟩

/-- C9: for every key function, `Copy` returns the nil slice both for a nil input and for an
input that is present but empty; `InPlace` returns nil for a nil input and a slice that is
present but empty for an input that is present but empty. -/
theorem C9_nil_and_empty (key : α → κ) :
    Copy (none : Option (List α)) key = none ∧
      Copy (some ([] : List α)) key = none ∧
      InPlace (none : Option (List α)) key = none ∧
      InPlace (some ([] : List α)) key = some [] :=
  ⟨rfl, rfl, rfl, rfl⟩

/-- C10: for every input and key function, `InPlace` returns the same elements in the same
order as `Copy`; the two results are equal as slices, except for an input that is present but
empty, which `InPlace` returns present and `Copy` returns nil. -/
theorem C10_InPlace_refines_Copy (key : α → κ) (list : Option (List α)) :
    (InPlace list key).getD [] = (Copy list key).getD [] ∧
      (InPlace list key = Copy list key ∨
        (list = some [] ∧ InPlace list key = some [] ∧ Copy list key = none)) := by
  cases list with
  | none => exact ⟨rfl, Or.inl rfl⟩
  | some xs =>
    refine ⟨by rw [copy_elems, inPlace_elems]; rfl, ?_⟩
    cases xs with
    | nil => exact Or.inr ⟨rfl, rfl, rfl⟩
    | cons v rest =>
      left
      rw [inPlace_elems]
      unfold Copy
      rw [copyLoop_eq]
      simp [keepNew]

end Claims

/-! ## `unique.List` -/

section UniqueListFacts

variable {α : Type} [DecidableEq α]

theorem Append_append (l : UniqueList α) (a b : List α) :
    l.Append (a ++ b) = (l.Append a).Append b := by
  simp [UniqueList.Append, List.foldl_append]

theorem AppendAll_eq_Append_flatten (calls : List (List α)) :
    ∀ l : UniqueList α, l.AppendAll calls = l.Append calls.flatten := by
  induction calls with
  | nil => intro l; rfl
  | cons c cs ih =>
    intro l
    rw [List.flatten_cons, Append_append, ← ih]
    rfl

theorem Append_list (values : List α) :
    ∀ l : UniqueList α,
      (l.Append values).list.getD [] =
        l.list.getD [] ++ keepNew (fun a : α => some a) l.seen values := by
  induction values with
  | nil => intro l; simp [UniqueList.Append, keepNew]
  | cons v vs ih =>
    intro l
    have hstep : l.Append (v :: vs) =
        (if v ∈ l.seen then l
          else { seen := v :: l.seen, list := sliceAppend l.list v }).Append vs := rfl
    rw [hstep]
    simp only [keepNew]
    by_cases hv : v ∈ l.seen
    · simp only [hv, if_true]
      exact ih l
    · simp only [hv, if_false]
      rw [ih]
      simp [sliceAppend]

end UniqueListFacts

/-! ## Further facts on `traverse.Errors` -/

section MoreTraverseFacts

variable {ε κ : Type} [DecidableEq κ]

theorem NewErrors_LogAll_errs (key : ε → κ) (log : List (LogEntry ε)) (calls : List (LogCall ε)) :
    ((NewErrors log).LogAll key calls).errs.errs =
      (keepNew (fun c : LogCall ε => c.err.map key) [] calls).filterMap (fun c => c.err) := by
  rw [(LogAll_errs_log key calls (NewErrors log)).1]
  simp [NewErrors]

theorem NewErrors_LogAll_keys (key : ε → κ) (log : List (LogEntry ε)) (calls : List (LogCall ε)) :
    ((NewErrors log).LogAll key calls).errs.errs.map key =
      (keepNew (fun c : LogCall ε => c.err.map key) [] calls).filterMap
        (fun c : LogCall ε => c.err.map key) := by
  rw [NewErrors_LogAll_errs, List.map_filterMap]

theorem NewErrors_LogAll_keys_mem (key : ε → κ) (log : List (LogEntry ε))
    (calls : List (LogCall ε)) (q : κ) :
    q ∈ ((NewErrors log).LogAll key calls).errs.errs.map key ↔ q ∈ reportedKeys key calls := by
  rw [NewErrors_LogAll_keys, keepNew_mem_keys, reportedKeys_eq]
  simp

theorem keepNew_card (key : ε → κ) (calls : List (LogCall ε)) :
    (keepNew (fun c : LogCall ε => c.err.map key) [] calls).length =
      (reportedKeys key calls).toFinset.card := by
  have hnd := keepNew_nodup_keys (fun c : LogCall ε => c.err.map key) calls []
  have hmem := keepNew_mem_keys (fun c : LogCall ε => c.err.map key) calls []
  rw [← keepNew_length_keys, ← List.toFinset_card_of_nodup hnd]
  congr 1
  ext q
  simp only [List.mem_toFinset, hmem q, reportedKeys_eq, List.not_mem_nil, not_false_eq_true,
    and_true]

theorem NewErrors_LogAll_errs_length (key : ε → κ) (log : List (LogEntry ε))
    (calls : List (LogCall ε)) :
    ((NewErrors log).LogAll key calls).errs.errs.length =
      (reportedKeys key calls).toFinset.card := by
  have h := congrArg List.length (NewErrors_LogAll_keys key log calls)
  rw [List.length_map, keepNew_length_keys, keepNew_card] at h
  exact h

theorem NewErrors_LogAll_log_length (key : ε → κ) (log : List (LogEntry ε))
    (calls : List (LogCall ε)) :
    ((NewErrors log).LogAll key calls).log.length =
      log.length + (reportedKeys key calls).toFinset.card := by
  rw [(LogAll_errs_log key calls (NewErrors log)).2, List.length_append, List.length_map]
  have h : (NewErrors log).errs.errs.map key = [] := rfl
  rw [h, keepNew_card]
  rfl

theorem NewErrors_LogAll_ok (key : ε → κ) (log : List (LogEntry ε)) (calls : List (LogCall ε)) :
    ((NewErrors log).LogAll key calls).ok = wrapInt (successes calls : Nat) := by
  have h0 : wrapInt (NewErrors log).ok = (NewErrors log).ok := by
    show wrapInt 0 = 0
    decide
  have hz : (NewErrors log).ok = 0 := rfl
  rw [LogAll_ok key calls (NewErrors log) h0, hz, Int.zero_add]

end MoreTraverseFacts

/-! ## The test `TestList` of `unique_test.go`, run on the embedding -/

/-- `TestList`: one `Append` call with ten elements. -/
theorem TestList_ints :
    ((NewList : UniqueList Nat).Append [1, 2, 3, 1, 4, 3, 5, 5, 5, 6]).list
      = some [1, 2, 3, 4, 5, 6] := by
  decide

/-! ## The claims on `unique.List` and on sequences of `Log` calls -/

theorem flatten_map_singleton {α : Type} (l : List α) :
    (l.map (fun v => [v])).flatten = l := by
  induction l with
  | nil => rfl
  | cons a l ih => simp [ih]

theorem successes_append {ε : Type} (a b : List (LogCall ε)) :
    successes (a ++ b) = successes a + successes b := by
  unfold successes
  rw [List.filter_append, List.length_append]

theorem successes_pos_iff {ε : Type} (calls : List (LogCall ε)) :
    0 < successes calls ↔ ∃ c ∈ calls, c.err = none := by
  unfold successes
  rw [List.length_pos, ne_eq, List.filter_eq_nil_iff]
  simp only [not_forall, Classical.not_not, Option.isNone_iff_eq_none, exists_prop]

theorem classify_Err {ε : Type} (e : traverse.Errors ε) :
    (classify e.Err = ErrClass.nil ↔ e.errs.errs = []) ∧
      (classify e.Err = ErrClass.PartialError ↔ e.errs.errs ≠ [] ∧ 0 < e.ok) ∧
      (classify e.Err = ErrClass.combined ↔ e.errs.errs ≠ [] ∧ ¬ 0 < e.ok) := by
  unfold traverse.Errors.Err unique.Errors.Err
  cases h : e.errs.errs with
  | nil => simp [classify]
  | cons x xs =>
    simp only []
    by_cases hok : 0 < e.ok
    · simp [classify, hok]
    · simp [classify, hok]

theorem classify_Err_ite {ε : Type} (e : traverse.Errors ε) :
    classify e.Err =
      if e.errs.errs.isEmpty = true then ErrClass.nil
      else if 0 < e.ok then ErrClass.PartialError else ErrClass.combined := by
  unfold traverse.Errors.Err unique.Errors.Err
  cases h : e.errs.errs with
  | nil => simp [classify]
  | cons x xs =>
    simp only []
    by_cases hok : 0 < e.ok
    · simp [classify, hok]
    · simp [classify, hok]

theorem LogAll_classify_PartialError {ε κ : Type} [DecidableEq κ] (key : ε → κ)
    (log : List (LogEntry ε)) (calls : List (LogCall ε)) :
    classify ((NewErrors log).LogAll key calls).Err = ErrClass.PartialError ↔
      (∃ c ∈ calls, c.err ≠ none) ∧ 0 < wrapInt (successes calls : Nat) := by
  rw [(classify_Err _).2.1, NewErrors_LogAll_ok, ne_eq, LogAll_errs_nil]
  have h : (NewErrors log).errs.errs = [] := rfl
  simp only [h, true_and, not_forall, exists_prop]

theorem ErrCall_ok_log {ε : Type}
    (errsErr : unique.Errors ε → unique.Errors ε × Option (Error ε)) (e : traverse.Errors ε) :
    (e.ErrCall errsErr).1.ok = e.ok ∧ (e.ErrCall errsErr).1.log = e.log := by
  unfold traverse.Errors.ErrCall
  dsimp only
  cases (errsErr e.errs).2 with
  | none => exact ⟨rfl, rfl⟩
  | some c =>
    dsimp only
    split <;> exact ⟨rfl, rfl⟩

theorem ErrCall_state {ε : Type}
    (errsErr : unique.Errors ε → unique.Errors ε × Option (Error ε)) (e : traverse.Errors ε)
    (hro : ∀ u, (errsErr u).1 = u) : (e.ErrCall errsErr).1 = e := by
  unfold traverse.Errors.ErrCall
  dsimp only
  cases (errsErr e.errs).2 with
  | none =>
    dsimp only
    rw [hro]
  | some c =>
    dsimp only
    split
    · dsimp only
      rw [hro, hro]
    · dsimp only
      rw [hro, hro]

theorem ErrCall_spec {ε : Type} (e : traverse.Errors ε) :
    e.ErrCall unique.Errors.ErrCall = (e, e.Err) := by
  unfold traverse.Errors.ErrCall traverse.Errors.Err unique.Errors.ErrCall
  dsimp only
  cases e.errs.Err with
  | none => rfl
  | some c =>
    dsimp only
    split <;> rfl

theorem Log_true_iff {ε κ : Type} [DecidableEq κ] (key : ε → κ) (e : traverse.Errors ε)
    (err : Option ε) (msg : String) (kv : List String) :
    (e.Log key err msg kv).2 = true ↔ ∃ x, err = some x ∧ ∀ y ∈ e.errs.errs, key y ≠ key x := by
  cases err with
  | none => simp [Log_nil]
  | some x =>
    by_cases h : key x ∈ e.errs.errs.map key
    · rw [Log_seen key e x msg kv h]
      simp only [Bool.false_eq_true, Option.some.injEq, exists_eq_left', false_iff]
      intro hall
      obtain ⟨y, hy, hk⟩ := List.mem_map.1 h
      exact hall y hy hk
    · rw [Log_new key e x msg kv h]
      simp only [Option.some.injEq, exists_eq_left', true_iff]
      intro y hy hk
      exact h (List.mem_map.2 ⟨y, hy, hk⟩)

section ClaimsB

variable {α ε κ : Type} [DecidableEq α] [DecidableEq κ]

theorem NewList_AppendAll_list (calls : List (List α)) :
    ((NewList : UniqueList α).AppendAll calls).list.getD [] =
      keepNew (fun a : α => some a) [] calls.flatten := by
  rw [AppendAll_eq_Append_flatten, Append_list]
  simp [NewList]

/-- C11: after any finite series of `Append` calls on a list made by `NewList`, the contents of
the list are the first-occurrence deduplication of the concatenation of all appended elements:
no element occurs twice, the elements are those appended, and the result does not depend on how
the elements are grouped into calls (one call with all of them, or one element per call). -/
theorem C11_Append_first_occurrences (calls : List (List α)) :
    ((NewList : UniqueList α).AppendAll calls).list.getD [] =
        firstOccurrences (Same : α → α) calls.flatten ∧
      (((NewList : UniqueList α).AppendAll calls).list.getD []).Nodup ∧
      (∀ v, v ∈ ((NewList : UniqueList α).AppendAll calls).list.getD [] ↔ v ∈ calls.flatten) ∧
      (∀ calls' : List (List α), calls'.flatten = calls.flatten →
        ((NewList : UniqueList α).AppendAll calls').list =
          ((NewList : UniqueList α).AppendAll calls).list) ∧
      ((NewList : UniqueList α).AppendAll [calls.flatten]).list =
        ((NewList : UniqueList α).AppendAll calls).list ∧
      ((NewList : UniqueList α).AppendAll (calls.flatten.map (fun v => [v]))).list =
        ((NewList : UniqueList α).AppendAll calls).list := by
  have hgroup : ∀ calls' : List (List α), calls'.flatten = calls.flatten →
      ((NewList : UniqueList α).AppendAll calls').list =
        ((NewList : UniqueList α).AppendAll calls).list := by
    intro calls' h
    rw [AppendAll_eq_Append_flatten, AppendAll_eq_Append_flatten, h]
  have hnd := keepNew_nodup_keys (fun a : α => some a) calls.flatten []
  have hmem := keepNew_mem_keys (fun a : α => some a) calls.flatten []
  rw [List.filterMap_some] at hnd
  refine ⟨?_, ?_, ?_, hgroup, hgroup _ (by simp), hgroup _ (flatten_map_singleton _)⟩
  · rw [NewList_AppendAll_list, firstOccurrences_eq_keepNew]
    rfl
  · rw [NewList_AppendAll_list]
    exact hnd
  · intro v
    rw [NewList_AppendAll_list]
    have h := hmem v
    rw [List.filterMap_some, List.filterMap_some] at h
    rw [h]
    simp

/-- C11 at the elements of `TestList`, appended in three calls and in one call. -/
theorem C11_Append_first_occurrences_witness :
    ([[1, 2, 3, 1, 4, 3, 5, 5, 5, 6]] : List (List Nat)).flatten =
        ([[1, 2, 3], [1, 4, 3, 5], [5, 5, 6]] : List (List Nat)).flatten ∧
      ((NewList : UniqueList Nat).AppendAll [[1, 2, 3, 1, 4, 3, 5, 5, 5, 6]]).list =
        ((NewList : UniqueList Nat).AppendAll [[1, 2, 3], [1, 4, 3, 5], [5, 5, 6]]).list :=
  ⟨by decide,
    (C11_Append_first_occurrences [[1, 2, 3], [1, 4, 3, 5], [5, 5, 6]]).2.2.2.1
      [[1, 2, 3, 1, 4, 3, 5, 5, 5, 6]] (by decide)⟩

/-- C12: after any finite sequence of `Log` calls on an aggregator made by `NewErrors`, the
error set holds the first reported error of each distinct equivalence key among the non-nil
errors reported, and nothing else: its keys are pairwise distinct and are exactly the reported
keys, every entry is a reported error, and a non-empty sequence of reports that all share one
key leaves exactly one entry. -/
theorem C12_one_representative_per_key (key : ε → κ) (log : List (LogEntry ε))
    (calls : List (LogCall ε)) :
    ((NewErrors log).LogAll key calls).errs.errs =
        (firstReports key calls).filterMap (fun c => c.err) ∧
      (((NewErrors log).LogAll key calls).errs.errs.map key).Nodup ∧
      (∀ q, q ∈ ((NewErrors log).LogAll key calls).errs.errs.map key ↔
        q ∈ reportedKeys key calls) ∧
      ((NewErrors log).LogAll key calls).errs.errs.length =
        (reportedKeys key calls).toFinset.card ∧
      (∀ x ∈ ((NewErrors log).LogAll key calls).errs.errs, ∃ c ∈ calls, c.err = some x) ∧
      (∀ q, calls ≠ [] → (∀ c ∈ calls, ∃ x, c.err = some x ∧ key x = q) →
        ((NewErrors log).LogAll key calls).errs.errs.length = 1) := by
  refine ⟨?_, ?_, NewErrors_LogAll_keys_mem key log calls,
    NewErrors_LogAll_errs_length key log calls, ?_, ?_⟩
  · rw [NewErrors_LogAll_errs, firstReports_eq_keepNew]
  · rw [NewErrors_LogAll_keys]
    exact keepNew_nodup_keys _ _ _
  · intro x hx
    rw [NewErrors_LogAll_errs] at hx
    obtain ⟨c, hc, hcx⟩ := List.mem_filterMap.1 hx
    exact ⟨c, (keepNew_sublist _ calls []).subset hc, hcx⟩
  · intro q hne hall
    rw [NewErrors_LogAll_errs_length]
    have hset : (reportedKeys key calls).toFinset = {q} := by
      ext r
      simp only [List.mem_toFinset, Finset.mem_singleton, reportedKeys, List.mem_map,
        List.mem_filterMap]
      constructor
      · rintro ⟨x, ⟨c, hc, hcx⟩, hr⟩
        obtain ⟨y, hy, hk⟩ := hall c hc
        rw [hcx] at hy
        cases hy
        rw [← hr, hk]
      · intro hr
        obtain ⟨c, hc⟩ := List.exists_mem_of_ne_nil calls hne
        obtain ⟨y, hy, hk⟩ := hall c hc
        exact ⟨y, ⟨c, hc, hy⟩, by rw [hk, hr]⟩
    rw [hset]
    rfl

/-- C12 at three reports of errors that share one key (the value modulo 10): one entry. -/
theorem C12_one_representative_per_key_witness :
    ([⟨some 3, "a", []⟩, ⟨some 13, "b", []⟩, ⟨some 23, "c", []⟩] : List (LogCall Nat)) ≠ [] ∧
      (∀ c ∈ ([⟨some 3, "a", []⟩, ⟨some 13, "b", []⟩, ⟨some 23, "c", []⟩] : List (LogCall Nat)),
        ∃ x, c.err = some x ∧ (fun n : Nat => n % 10) x = 3) ∧
      ((NewErrors ([] : List (LogEntry Nat))).LogAll (fun n : Nat => n % 10)
        [⟨some 3, "a", []⟩, ⟨some 13, "b", []⟩, ⟨some 23, "c", []⟩]).errs.errs.length = 1 :=
  ⟨by decide, by decide,
    (C12_one_representative_per_key (fun n : Nat => n % 10) []
      [⟨some 3, "a", []⟩, ⟨some 13, "b", []⟩, ⟨some 23, "c", []⟩]).2.2.2.2.2 3
      (by decide) (by decide)⟩

/-- C13: in every aggregator state and for every `Log` call, every error recorded in the error
set before the call is still recorded after it, and so after any further sequence of calls; once
`Err` returns a non-nil result it returns a non-nil result after any further `Log` calls. -/
theorem C13_error_set_grows (key : ε → κ) (e : traverse.Errors ε) :
    (∀ (err : Option ε) (msg : String) (kv : List String), ∀ x ∈ e.errs.errs,
        x ∈ (e.Log key err msg kv).1.errs.errs) ∧
      (∀ (calls : List (LogCall ε)), ∀ x ∈ e.errs.errs, x ∈ (e.LogAll key calls).errs.errs) ∧
      (∀ (calls : List (LogCall ε)), e.Err ≠ none → (e.LogAll key calls).Err ≠ none) := by
  have hall : ∀ (calls : List (LogCall ε)), ∀ x ∈ e.errs.errs,
      x ∈ (e.LogAll key calls).errs.errs := by
    intro calls x hx
    rw [(LogAll_errs_log key calls e).1]
    exact List.mem_append_left _ hx
  refine ⟨?_, hall, ?_⟩
  · intro err msg kv x hx
    exact hall [⟨err, msg, kv⟩] x hx
  · intro calls hne hnil
    apply hne
    rw [Err_eq_none_iff] at hnil ⊢
    rw [(LogAll_errs_log key calls e).1] at hnil
    exact (List.append_eq_nil.1 hnil).1

/-- C13 at a state with one error and a success, followed by two more calls. -/
theorem C13_error_set_grows_witness :
    (⟨⟨[7]⟩, 1, []⟩ : traverse.Errors Nat).Err ≠ none ∧
      ((⟨⟨[7]⟩, 1, []⟩ : traverse.Errors Nat).LogAll (fun n : Nat => n)
        [⟨none, "a", []⟩, ⟨some 8, "b", []⟩]).Err ≠ none :=
  ⟨by decide,
    (C13_error_set_grows (fun n : Nat => n) ⟨⟨[7]⟩, 1, []⟩).2.2
      [⟨none, "a", []⟩, ⟨some 8, "b", []⟩] (by decide)⟩

/-- C17: in every aggregator state and for every non-nil `err`, a second call `Log(err, ...)`
made immediately after a first call `Log(err, ...)` returns false, emits no log entry, and
leaves the error set and the success counter as they were after the first call: the state after
the second call is the state after the first. -/
theorem C17_Log_twice (key : ε → κ) (e : traverse.Errors ε) (x : ε)
    (msg msg' : String) (kv kv' : List String) :
    ((e.Log key (some x) msg kv).1.Log key (some x) msg' kv').2 = false ∧
      ((e.Log key (some x) msg kv).1.Log key (some x) msg' kv').1.log =
        (e.Log key (some x) msg kv).1.log ∧
      ((e.Log key (some x) msg kv).1.Log key (some x) msg' kv').1.errs =
        (e.Log key (some x) msg kv).1.errs ∧
      ((e.Log key (some x) msg kv).1.Log key (some x) msg' kv').1.ok =
        (e.Log key (some x) msg kv).1.ok := by
  have hseen : key x ∈ (e.Log key (some x) msg kv).1.errs.errs.map key := by
    by_cases h : key x ∈ e.errs.errs.map key
    · rw [Log_seen key e x msg kv h]
      exact h
    · rw [Log_new key e x msg kv h]
      simp
  rw [Log_seen key _ x msg' kv' hseen]
  exact ⟨rfl, rfl, rfl, rfl⟩

/-- C18: `Err` does not change the aggregator. (1) The body of `Err` writes no field: whatever
the call `e.errs.Err()` does, the counter and the sink after `Err` are those before it. (2) When
that call leaves the error set as it was, the aggregator after `Err` is the aggregator before
it; two consecutive `Err` calls return equal results; any `Log` call, and any sequence of `Log`
calls, made after `Err` returns the same value and gives the same error set, success counter
and log emissions as without the `Err` call; in particular `Log` still counts a nil `err` and
still tells a new error from a recorded one. (3) With the accessor of the spec, `Err` leaves the
aggregator as it was and returns the result of `Errors.Err`. -/
theorem C18_Err_reads_only
    (errsErr : unique.Errors ε → unique.Errors ε × Option (Error ε)) (e : traverse.Errors ε) :
    ((e.ErrCall errsErr).1.ok = e.ok ∧ (e.ErrCall errsErr).1.log = e.log) ∧
      ((∀ u, (errsErr u).1 = u) →
        (e.ErrCall errsErr).1 = e ∧
          ((e.ErrCall errsErr).1.ErrCall errsErr).2 = (e.ErrCall errsErr).2 ∧
          (∀ (key : ε → κ) (err : Option ε) (msg : String) (kv : List String),
            (e.ErrCall errsErr).1.Log key err msg kv = e.Log key err msg kv) ∧
          (∀ (key : ε → κ) (calls : List (LogCall ε)),
            (e.ErrCall errsErr).1.LogAll key calls = e.LogAll key calls) ∧
          (∀ (key : ε → κ) (msg : String) (kv : List String),
            ((e.ErrCall errsErr).1.Log key none msg kv).1.ok = wrapInt (e.ok + 1)) ∧
          (∀ (key : ε → κ) (err : Option ε) (msg : String) (kv : List String),
            ((e.ErrCall errsErr).1.Log key err msg kv).2 = true ↔
              ∃ x, err = some x ∧ ∀ y ∈ e.errs.errs, key y ≠ key x)) ∧
      e.ErrCall unique.Errors.ErrCall = (e, e.Err) := by
  refine ⟨ErrCall_ok_log errsErr e, ?_, ErrCall_spec e⟩
  intro hro
  have hstate := ErrCall_state errsErr e hro
  rw [hstate]
  refine ⟨rfl, rfl, fun _ _ _ _ => rfl, fun _ _ => rfl, ?_, ?_⟩
  · intro key msg kv
    rw [Log_nil]
  · intro key err msg kv
    exact Log_true_iff key e err msg kv

/-- C18 at a state with one recorded error and one success, with the accessor of the spec: a
`Log` call after `Err` does what it does without it. -/
theorem C18_Err_reads_only_witness :
    (∀ u : unique.Errors Nat, (unique.Errors.ErrCall u).1 = u) ∧
      (((⟨⟨[7]⟩, 1, []⟩ : traverse.Errors Nat).ErrCall unique.Errors.ErrCall).1.Log
          (fun n : Nat => n) (some 8) "failed" []) =
        ((⟨⟨[7]⟩, 1, []⟩ : traverse.Errors Nat).Log (fun n : Nat => n) (some 8) "failed" []) :=
  ⟨fun _ => rfl,
    ((C18_Err_reads_only unique.Errors.ErrCall ⟨⟨[7]⟩, 1, []⟩).2.1 (fun _ => rfl)).2.2.1
      (fun n : Nat => n) (some 8) "failed" []⟩

/-- C14, as stated, fails for `2^63` calls with a nil `err` followed by one call with a
non-nil `err`: the counter has wrapped around to a negative value, and `Err` returns the plain
combined error although both kinds of call were made. -/
theorem C14_counterexample :
    ¬ (classify ((NewErrors ([] : List (LogEntry Nat))).LogAll (fun n : Nat => n)
          (List.replicate (2 ^ 63) ⟨none, "", []⟩ ++ [⟨some 1, "", []⟩])).Err
          = ErrClass.PartialError ↔
        ((∃ c ∈ List.replicate (2 ^ 63) (⟨none, "", []⟩ : LogCall Nat) ++ [⟨some 1, "", []⟩],
            c.err = none) ∧
          (∃ c ∈ List.replicate (2 ^ 63) (⟨none, "", []⟩ : LogCall Nat) ++ [⟨some 1, "", []⟩],
            c.err ≠ none))) := by
  intro h
  have hnil : ∃ c ∈ List.replicate (2 ^ 63) (⟨none, "", []⟩ : LogCall Nat) ++ [⟨some 1, "", []⟩],
      c.err = none :=
    ⟨⟨none, "", []⟩, List.mem_append_left _ (List.mem_replicate.2 ⟨by norm_num, rfl⟩), rfl⟩
  have herr : ∃ c ∈ List.replicate (2 ^ 63) (⟨none, "", []⟩ : LogCall Nat) ++ [⟨some 1, "", []⟩],
      c.err ≠ none :=
    ⟨⟨some 1, "", []⟩, List.mem_append_right _ (List.mem_singleton.2 rfl), by
      intro h0; cases h0⟩
  have hp := h.2 ⟨hnil, herr⟩
  rw [LogAll_classify_PartialError, successes_append, successes_replicate] at hp
  have h0 : successes ([⟨some 1, "", []⟩] : List (LogCall Nat)) = 0 := rfl
  rw [h0] at hp
  have hneg := hp.2
  unfold wrapInt at hneg
  norm_num at hneg

/-- C14 (amended): after any finite sequence of `Log` calls on an aggregator made by
`NewErrors`, `Err` returns a `PartialError` if and only if the sequence has a call with a
non-nil `err` and the number of calls with a nil `err`, reduced to the range of `int` by
wrap-around, is positive; when fewer than `2^63` calls have a nil `err`, that is: if and only if
the sequence has at least one call with a nil `err` and at least one with a non-nil `err`. -/
theorem C14_PartialError_iff (key : ε → κ) (log : List (LogEntry ε)) (calls : List (LogCall ε)) :
    (classify ((NewErrors log).LogAll key calls).Err = ErrClass.PartialError ↔
        (∃ c ∈ calls, c.err ≠ none) ∧ 0 < wrapInt (successes calls : Nat)) ∧
      (((successes calls : Nat) : Int) < 2 ^ 63 →
        (classify ((NewErrors log).LogAll key calls).Err = ErrClass.PartialError ↔
          (∃ c ∈ calls, c.err = none) ∧ (∃ c ∈ calls, c.err ≠ none))) := by
  refine ⟨LogAll_classify_PartialError key log calls, ?_⟩
  intro hlt
  rw [LogAll_classify_PartialError, wrapInt_of_inRange _ (by omega) hlt, ← successes_pos_iff]
  constructor
  · rintro ⟨h1, h2⟩
    exact ⟨by exact_mod_cast h2, h1⟩
  · rintro ⟨h1, h2⟩
    exact ⟨h2, by exact_mod_cast h1⟩

/-- C14 at a success followed by an error: `Err` returns a `PartialError`. -/
theorem C14_PartialError_iff_witness :
    ((successes ([⟨none, "a", []⟩, ⟨some 5, "b", []⟩] : List (LogCall Nat)) : Nat) : Int) < 2 ^ 63 ∧
      (classify ((NewErrors ([] : List (LogEntry Nat))).LogAll (fun n : Nat => n)
          [⟨none, "a", []⟩, ⟨some 5, "b", []⟩]).Err = ErrClass.PartialError ↔
        (∃ c ∈ ([⟨none, "a", []⟩, ⟨some 5, "b", []⟩] : List (LogCall Nat)), c.err = none) ∧
          (∃ c ∈ ([⟨none, "a", []⟩, ⟨some 5, "b", []⟩] : List (LogCall Nat)), c.err ≠ none)) :=
  ⟨by decide,
    (C14_PartialError_iff (fun n : Nat => n) [] [⟨none, "a", []⟩, ⟨some 5, "b", []⟩]).2
      (by decide)⟩

/-- C16: for two finite sequences of `Log` calls that are permutations of one another, each
applied to an aggregator made by `NewErrors`, the final success counters are equal, the numbers
of log emissions are equal, the sets of recorded error keys are equal, and `Err` returns a
result of the same class (nil, plain combined error, or `PartialError`). -/
theorem C16_permutation_invariance (key : ε → κ) (log₁ log₂ : List (LogEntry ε))
    (calls₁ calls₂ : List (LogCall ε)) (hp : calls₁.Perm calls₂) :
    ((NewErrors log₁).LogAll key calls₁).ok = ((NewErrors log₂).LogAll key calls₂).ok ∧
      ((NewErrors log₁).LogAll key calls₁).log.length - log₁.length =
        ((NewErrors log₂).LogAll key calls₂).log.length - log₂.length ∧
      (((NewErrors log₁).LogAll key calls₁).errs.errs.map key).toFinset =
        (((NewErrors log₂).LogAll key calls₂).errs.errs.map key).toFinset ∧
      classify ((NewErrors log₁).LogAll key calls₁).Err =
        classify ((NewErrors log₂).LogAll key calls₂).Err := by
  have hsucc : successes calls₁ = successes calls₂ := (hp.filter _).length_eq
  have hkeys : (reportedKeys key calls₁).toFinset = (reportedKeys key calls₂).toFinset :=
    List.toFinset_eq_of_perm _ _ ((hp.filterMap _).map key)
  have hok : ((NewErrors log₁).LogAll key calls₁).ok =
      ((NewErrors log₂).LogAll key calls₂).ok := by
    rw [NewErrors_LogAll_ok, NewErrors_LogAll_ok, hsucc]
  have hempty : ((NewErrors log₁).LogAll key calls₁).errs.errs.isEmpty =
      ((NewErrors log₂).LogAll key calls₂).errs.errs.isEmpty := by
    rw [Bool.eq_iff_iff, List.isEmpty_iff, List.isEmpty_iff, LogAll_errs_nil, LogAll_errs_nil]
    constructor
    · rintro ⟨_, h⟩
      exact ⟨rfl, fun c hc => h c (hp.mem_iff.2 hc)⟩
    · rintro ⟨_, h⟩
      exact ⟨rfl, fun c hc => h c (hp.mem_iff.1 hc)⟩
  refine ⟨hok, ?_, ?_, ?_⟩
  · rw [NewErrors_LogAll_log_length, NewErrors_LogAll_log_length, hkeys,
      Nat.add_sub_cancel_left, Nat.add_sub_cancel_left]
  · ext q
    rw [List.mem_toFinset, List.mem_toFinset, NewErrors_LogAll_keys_mem,
      NewErrors_LogAll_keys_mem, ← List.mem_toFinset, hkeys, List.mem_toFinset]
  · rw [classify_Err_ite, classify_Err_ite, hempty, hok]

/-- C16 at a sequence of three calls and a rotation of it. -/
theorem C16_permutation_invariance_witness :
    ([⟨none, "a", []⟩, ⟨some 5, "b", []⟩, ⟨some 15, "c", []⟩] : List (LogCall Nat)).Perm
        [⟨some 15, "c", []⟩, ⟨none, "a", []⟩, ⟨some 5, "b", []⟩] ∧
      classify ((NewErrors ([] : List (LogEntry Nat))).LogAll (fun n : Nat => n % 10)
          [⟨none, "a", []⟩, ⟨some 5, "b", []⟩, ⟨some 15, "c", []⟩]).Err =
        classify ((NewErrors ([] : List (LogEntry Nat))).LogAll (fun n : Nat => n % 10)
          [⟨some 15, "c", []⟩, ⟨none, "a", []⟩, ⟨some 5, "b", []⟩]).Err :=
  ⟨by decide,
    (C16_permutation_invariance (fun n : Nat => n % 10) [] []
      [⟨none, "a", []⟩, ⟨some 5, "b", []⟩, ⟨some 15, "c", []⟩]
      [⟨some 15, "c", []⟩, ⟨none, "a", []⟩, ⟨some 5, "b", []⟩] (by decide)).2.2.2⟩

end ClaimsB

/-! ## Concurrent calls of `Log` -/

section Concurrent

variable {ε κ : Type} [DecidableEq κ]

theorem Log_errs (key : ε → κ) (e : traverse.Errors ε) (err : Option ε) (msg : String)
    (kv : List String) : (e.Log key err msg kv).1.errs = (e.errs.Add key err).1 := by
  cases err with
  | none => rw [Log_nil]; rfl
  | some x =>
    by_cases h : key x ∈ e.errs.errs.map key
    · rw [Log_seen key e x msg kv h]
      simp only [unique.Errors.Add, h, if_true]
    · rw [Log_new key e x msg kv h]
      simp only [unique.Errors.Add, h, if_false]

theorem Log_ok (key : ε → κ) (e : traverse.Errors ε) (err : Option ε) (msg : String)
    (kv : List String) :
    (e.Log key err msg kv).1.ok =
      match err with
      | none => wrapInt (e.ok + 1)
      | some _ => e.ok := by
  cases err with
  | none => rw [Log_nil]
  | some x =>
    by_cases h : key x ∈ e.errs.errs.map key
    · rw [Log_seen key e x msg kv h]
    · rw [Log_new key e x msg kv h]

theorem serial_snoc (key : ε → κ) (calls : Nat → LogCall ε) (e₀ : traverse.Errors ε)
    (h : List Nat) (i : Nat) :
    serial key calls e₀ (h ++ [i]) =
      ((serial key calls e₀ h).Log key (calls i).err (calls i).msg (calls i).kv).1 := by
  unfold serial
  rw [List.map_append, LogAll_append]
  rfl

theorem init_Inv (key : ε → κ) (calls : Nat → LogCall ε) (e₀ : traverse.Errors ε) :
    (System.init e₀).Inv key calls e₀ := by
  refine ⟨?_, ?_⟩
  · intro j hj
    simp [System.init, Pc.inCritical] at hj
  · exact ⟨rfl, rfl⟩

theorem step_Inv (key : ε → κ) (calls : Nat → LogCall ε) (e₀ : traverse.Errors ε)
    (s : System ε) (i : Nat) (b : Bool) (hinv : s.Inv key calls e₀) :
    (s.step key calls i b).Inv key calls e₀ := by
  have hcrit := hinv.1
  have hstate := hinv.2
  have hupd : ∀ (v : Pc) (j : Nat), (Function.update s.pc i v j).inCritical = true →
      j = i ∨ (s.pc j).inCritical = true := by
    intro v j hj
    by_cases hji : j = i
    · exact Or.inl hji
    · rw [Function.update_noteq hji] at hj
      exact Or.inr hj
  unfold System.step
  cases hpc : s.pc i with
  | atLock =>
    cases hm : s.m with
    | none =>
      simp only [hm] at hstate
      refine ⟨?_, ?_⟩
      · intro j hj
        rcases hupd _ j hj with hji | hj'
        · rw [hji]
        · have := hcrit j hj'
          rw [hm] at this
          cases this
      · refine ⟨s.hist, rfl, ?_⟩
        simp only [Function.update_same, midCall]
        exact hstate
    | some j =>
      simp only []
      exact hinv
  | atCount =>
    have hm : s.m = some i := hcrit i (by rw [hpc]; rfl)
    simp only [hm, hpc] at hstate
    obtain ⟨h, hh, herrs, hok⟩ := hstate
    refine ⟨?_, ?_⟩
    · intro j hj
      rcases hupd _ j hj with hji | hj'
      · rw [hji]; exact hm
      · exact hcrit j hj'
    · simp only [hm]
      refine ⟨h, hh, ?_⟩
      simp only [Function.update_same, midCall]
      refine ⟨herrs, ?_⟩
      rw [serial_snoc, Log_ok, hok]
  | atAdd =>
    have hm : s.m = some i := hcrit i (by rw [hpc]; rfl)
    simp only [hm, hpc] at hstate
    obtain ⟨h, hh, herrs, hok⟩ := hstate
    refine ⟨?_, ?_⟩
    · intro j hj
      rcases hupd _ j hj with hji | hj'
      · rw [hji]; exact hm
      · exact hcrit j hj'
    · simp only [hm]
      refine ⟨h, hh, ?_⟩
      simp only [Function.update_same]
      have hnew : (s.e.errs.Add key (calls i).err).1 = (serial key calls e₀ (h ++ [i])).errs := by
        rw [serial_snoc, Log_errs, herrs]
      split <;> exact ⟨hnew, hok⟩
  | atEmit =>
    have hm : s.m = some i := hcrit i (by rw [hpc]; rfl)
    simp only [hm, hpc] at hstate
    obtain ⟨h, hh, herrs, hok⟩ := hstate
    cases b with
    | true =>
      simp only [if_true]
      refine ⟨?_, ?_⟩
      · intro j hj
        rcases hupd _ j hj with hji | hj'
        · rw [hji]; exact hm
        · exact hcrit j hj'
      · simp only [hm]
        refine ⟨h, hh, ?_⟩
        simp only [Function.update_same]
        exact ⟨herrs, hok⟩
    | false =>
      simp only [Bool.false_eq_true, if_false]
      refine ⟨?_, ?_⟩
      · intro j hj
        rcases hupd _ j hj with hji | hj'
        · rw [hji]; exact hm
        · exact hcrit j hj'
      · simp only [hm]
        refine ⟨h, hh, ?_⟩
        simp only [Function.update_same]
        exact ⟨herrs, hok⟩
  | atUnlock ret =>
    have hm : s.m = some i := hcrit i (by rw [hpc]; rfl)
    simp only [hm, hpc] at hstate
    obtain ⟨h, hh, herrs, hok⟩ := hstate
    refine ⟨?_, ?_⟩
    · intro j hj
      have hj2 : (Function.update s.pc i (Pc.exited ret) j).inCritical = true := hj
      rcases hupd _ j hj2 with hji | hj'
      · rw [hji, Function.update_same] at hj2
        cases hj2
      · have hmj := hcrit j hj'
        rw [hm] at hmj
        have hji : i = j := Option.some.inj hmj
        rw [← hji, Function.update_same] at hj2
        cases hj2
    · simp only []
      rw [hh]
      exact ⟨herrs, hok⟩
  | exited ret =>
    simp only []
    exact hinv

theorem run_Inv (key : ε → κ) (calls : Nat → LogCall ε) (e₀ : traverse.Errors ε)
    (sched : List (Nat × Bool)) :
    ∀ s : System ε, s.Inv key calls e₀ → (s.run key calls sched).Inv key calls e₀ := by
  induction sched with
  | nil => intro s h; exact h
  | cons a rest ih =>
    intro s h
    exact ih _ (step_Inv key calls e₀ s a.1 a.2 h)

end Concurrent

section ConcurrentSteps

variable {ε κ : Type} [DecidableEq κ]

theorem step_mutation_inCritical (key : ε → κ) (calls : Nat → LogCall ε) (s : System ε)
    (i : Nat) (b : Bool)
    (h : (s.step key calls i b).e.errs ≠ s.e.errs ∨ (s.step key calls i b).e.ok ≠ s.e.ok) :
    (s.pc i).inCritical = true := by
  unfold System.step at h
  cases hpc : s.pc i with
  | atLock =>
    rw [hpc] at h
    cases hm : s.m with
    | none => rw [hm] at h; simp at h
    | some j => rw [hm] at h; simp at h
  | atCount => rfl
  | atAdd => rfl
  | atEmit => rfl
  | atUnlock ret => rfl
  | exited ret => rw [hpc] at h; simp at h

theorem step_exited (key : ε → κ) (calls : Nat → LogCall ε) (s : System ε) (i : Nat) (b : Bool)
    (ret : Option Bool) (hpc : s.pc i = Pc.exited ret) : s.step key calls i b = s := by
  unfold System.step
  rw [hpc]

theorem step_atUnlock (key : ε → κ) (calls : Nat → LogCall ε) (s : System ε) (i : Nat) (b : Bool)
    (ret : Option Bool) (hpc : s.pc i = Pc.atUnlock ret) :
    (s.step key calls i b).m = none ∧ (s.step key calls i b).pc i = Pc.exited ret := by
  unfold System.step
  rw [hpc]
  exact ⟨rfl, Function.update_same _ _ _⟩

theorem step_atEmit (key : ε → κ) (calls : Nat → LogCall ε) (s : System ε) (i : Nat) (b : Bool)
    (hpc : s.pc i = Pc.atEmit) : ∃ ret, (s.step key calls i b).pc i = Pc.atUnlock ret := by
  unfold System.step
  rw [hpc]
  cases b with
  | true => exact ⟨none, Function.update_same _ _ _⟩
  | false => exact ⟨some true, Function.update_same _ _ _⟩

theorem step_atAdd (key : ε → κ) (calls : Nat → LogCall ε) (s : System ε) (i : Nat) (b : Bool)
    (hpc : s.pc i = Pc.atAdd) :
    (s.step key calls i b).pc i = Pc.atEmit ∨
      (s.step key calls i b).pc i = Pc.atUnlock (some false) := by
  unfold System.step
  rw [hpc]
  simp only [Function.update_same]
  by_cases h : (s.e.errs.Add key (calls i).err).2 = true
  · left; simp only [h, if_true]
  · right; simp only [h, Bool.false_eq_true, if_false]

theorem step_atCount (key : ε → κ) (calls : Nat → LogCall ε) (s : System ε) (i : Nat) (b : Bool)
    (hpc : s.pc i = Pc.atCount) : (s.step key calls i b).pc i = Pc.atAdd := by
  unfold System.step
  rw [hpc]
  exact Function.update_same _ _ _

/-- From inside the critical section, four own steps take a goroutine out of `Log` with the
mutex released, whatever the sink does. -/
theorem holder_exits (key : ε → κ) (calls : Nat → LogCall ε) (s : System ε) (i : Nat)
    (hin : (s.pc i).inCritical = true) (b₁ b₂ b₃ b₄ : Bool) :
    (s.run key calls [(i, b₁), (i, b₂), (i, b₃), (i, b₄)]).m = none ∧
      ∃ ret, (s.run key calls [(i, b₁), (i, b₂), (i, b₃), (i, b₄)]).pc i = Pc.exited ret := by
  have hrun : s.run key calls [(i, b₁), (i, b₂), (i, b₃), (i, b₄)] =
      (((s.step key calls i b₁).step key calls i b₂).step key calls i b₃).step key calls i b₄ :=
    rfl
  rw [hrun]
  have stay : ∀ (t : System ε) (b : Bool), (t.m = none ∧ ∃ ret, t.pc i = Pc.exited ret) →
      ((t.step key calls i b).m = none ∧ ∃ ret, (t.step key calls i b).pc i = Pc.exited ret) := by
    intro t b ht
    obtain ⟨hm, ret, hret⟩ := ht
    rw [step_exited key calls t i b ret hret]
    exact ⟨hm, ret, hret⟩
  have fromUnlock : ∀ (t : System ε) (b : Bool) (ret : Option Bool), t.pc i = Pc.atUnlock ret →
      ((t.step key calls i b).m = none ∧ ∃ r, (t.step key calls i b).pc i = Pc.exited r) := by
    intro t b ret ht
    exact ⟨(step_atUnlock key calls t i b ret ht).1, ret, (step_atUnlock key calls t i b ret ht).2⟩
  have fromEmit : ∀ (t : System ε) (b b' : Bool), t.pc i = Pc.atEmit →
      (((t.step key calls i b).step key calls i b').m = none ∧
        ∃ r, ((t.step key calls i b).step key calls i b').pc i = Pc.exited r) := by
    intro t b b' ht
    obtain ⟨ret, hret⟩ := step_atEmit key calls t i b ht
    exact fromUnlock _ b' ret hret
  have fromAdd : ∀ (t : System ε) (b b' b'' : Bool), t.pc i = Pc.atAdd →
      ((((t.step key calls i b).step key calls i b').step key calls i b'').m = none ∧
        ∃ r, (((t.step key calls i b).step key calls i b').step key calls i b'').pc i
          = Pc.exited r) := by
    intro t b b' b'' ht
    rcases step_atAdd key calls t i b ht with h | h
    · exact fromEmit _ b' b'' h
    · exact stay _ b'' (fromUnlock _ b' _ h)
  cases hpc : s.pc i with
  | atLock => rw [hpc] at hin; cases hin
  | atCount => exact fromAdd _ b₂ b₃ b₄ (step_atCount key calls s i b₁ hpc)
  | atAdd => exact stay _ b₄ (fromAdd s b₁ b₂ b₃ hpc)
  | atEmit => exact stay _ b₄ (stay _ b₃ (fromEmit s b₁ b₂ hpc))
  | atUnlock ret => exact stay _ b₄ (stay _ b₃ (stay _ b₂ (fromUnlock s b₁ ret hpc)))
  | exited ret => rw [hpc] at hin; cases hin

theorem Inv_holder_inCritical (key : ε → κ) (calls : Nat → LogCall ε) (e₀ : traverse.Errors ε)
    (s : System ε) (i : Nat) (hinv : s.Inv key calls e₀) (hm : s.m = some i) :
    (s.pc i).inCritical = true := by
  have hstate := hinv.2
  simp only [hm] at hstate
  obtain ⟨h, _, hmid⟩ := hstate
  cases hpc : s.pc i with
  | atLock => rw [hpc] at hmid; exact hmid.elim
  | atCount => rfl
  | atAdd => rfl
  | atEmit => rfl
  | atUnlock ret => rfl
  | exited ret => rw [hpc] at hmid; exact hmid.elim

end ConcurrentSteps

section ClaimsC

variable {ε κ : Type} [DecidableEq κ]

/-- C15: under any interleaving of concurrent `Log` calls, (1) a step that changes the error set
or the success counter is taken by the goroutine that holds the mutex, (2) at most one goroutine
is inside the critical section, (3) whenever the mutex is free, which is when another call can
enter, the error set and the counter are those of the calls that went through, made one after
the other in the order in which they took the mutex, so that no call sees one updated without
the other, (4) a goroutine that has left `Log` does not hold the mutex, and (5) the holder of
the mutex leaves `Log` with the mutex released within four of its own steps, on the path that
returns true, on the path that returns false and when the sink panics. -/
theorem C15_mutex_discipline (key : ε → κ) (calls : Nat → LogCall ε) (e₀ : traverse.Errors ε)
    (sched : List (Nat × Bool)) :
    (∀ (i : Nat) (b : Bool),
        ((((System.init e₀).run key calls sched).step key calls i b).e.errs ≠
            ((System.init e₀).run key calls sched).e.errs ∨
          (((System.init e₀).run key calls sched).step key calls i b).e.ok ≠
            ((System.init e₀).run key calls sched).e.ok) →
        ((System.init e₀).run key calls sched).m = some i) ∧
      (∀ i j : Nat, (((System.init e₀).run key calls sched).pc i).inCritical = true →
        (((System.init e₀).run key calls sched).pc j).inCritical = true → i = j) ∧
      (((System.init e₀).run key calls sched).m = none →
        ((System.init e₀).run key calls sched).e.errs =
            (serial key calls e₀ ((System.init e₀).run key calls sched).hist).errs ∧
          ((System.init e₀).run key calls sched).e.ok =
            (serial key calls e₀ ((System.init e₀).run key calls sched).hist).ok) ∧
      (∀ (i : Nat) (ret : Option Bool),
        ((System.init e₀).run key calls sched).pc i = Pc.exited ret →
        ((System.init e₀).run key calls sched).m ≠ some i) ∧
      (∀ i : Nat, ((System.init e₀).run key calls sched).m = some i →
        ∀ b₁ b₂ b₃ b₄ : Bool,
          (((System.init e₀).run key calls sched).run key calls
              [(i, b₁), (i, b₂), (i, b₃), (i, b₄)]).m = none ∧
            ∃ ret, (((System.init e₀).run key calls sched).run key calls
              [(i, b₁), (i, b₂), (i, b₃), (i, b₄)]).pc i = Pc.exited ret) := by
  have hinv := run_Inv key calls e₀ sched (System.init e₀) (init_Inv key calls e₀)
  generalize (System.init e₀).run key calls sched = s at hinv ⊢
  refine ⟨?_, ?_, ?_, ?_, ?_⟩
  · intro i b h
    exact hinv.1 i (step_mutation_inCritical key calls s i b h)
  · intro i j hi hj
    have h1 := hinv.1 i hi
    have h2 := hinv.1 j hj
    rw [h1] at h2
    exact Option.some.inj h2
  · intro hm
    have hstate := hinv.2
    simp only [hm] at hstate
    exact hstate
  · intro i ret hpc hm
    have hin := Inv_holder_inCritical key calls e₀ s i hinv hm
    rw [hpc] at hin
    cases hin
  · intro i hm b₁ b₂ b₃ b₄
    exact holder_exits key calls s i (Inv_holder_inCritical key calls e₀ s i hinv hm) b₁ b₂ b₃ b₄

/-- C15 at two goroutines, a success and an error, interleaved: when goroutine 0 holds the mutex
after the schedule, its next four steps release it. -/
theorem C15_mutex_discipline_witness :
    ((System.init (NewErrors ([] : List (LogEntry Nat)))).run (fun n : Nat => n)
        (fun i => if i = 0 then ⟨none, "ok", []⟩ else ⟨some 5, "failed", []⟩)
        [(1, false), (0, false), (1, false), (1, false), (0, false), (1, false), (1, false),
          (0, false)]).m = some 0 ∧
      (((System.init (NewErrors ([] : List (LogEntry Nat)))).run (fun n : Nat => n)
        (fun i => if i = 0 then ⟨none, "ok", []⟩ else ⟨some 5, "failed", []⟩)
        [(1, false), (0, false), (1, false), (1, false), (0, false), (1, false), (1, false),
          (0, false)]).run (fun n : Nat => n)
        (fun i => if i = 0 then ⟨none, "ok", []⟩ else ⟨some 5, "failed", []⟩)
        [(0, false), (0, true), (0, false), (0, true)]).m = none :=
  ⟨by decide,
    ((C15_mutex_discipline (fun n : Nat => n)
      (fun i => if i = 0 then ⟨none, "ok", []⟩ else ⟨some 5, "failed", []⟩)
      (NewErrors []) [(1, false), (0, false), (1, false), (1, false), (0, false), (1, false),
        (1, false), (0, false)]).2.2.2.2 0 (by decide) false true false true).1⟩

end ClaimsC
